import Mathlib

set_option maxRecDepth 8000

/-!
Verification development for the BLSCT range-proof engine
(`src/blsct/arith/range_proof/range_proof.cpp`).

The scalar/group arithmetic library (Mcl `Scalar`/`G1Point`), the vector
helper classes (`Scalars`/`G1Points`), `Config`, and the `Proof` /
`TxInToRecover` structs are external to the translated unit; they are
modelled here from the spec (sections 3, 4 and 6) and from the usage and
comments in `range_proof.cpp` itself.  Group elements are modelled as
elements of the free module over the independent generator families
`{G, H, Gi[i], Hi[i]}` (spec section 2 assumes independent generators),
scalars as the BLS12-381 scalar field `ZMod rOrder`.
-/

/-- Order of the BLS12-381 scalar field (the curve assumed by the spec's
"curve's scalar field"). -/
def rOrder : Nat := 52435875175126190479447740508185965837690552500527637822603658699938581184513

/-- Modelled from the spec: a `Scalar` is an element of the curve's scalar
field (spec section 3). -/
abbrev Scalar := ZMod rOrder

/-- Modelled from the spec: fixed per-value bit width (`Config::m_input_value_bits`);
the code hard-codes 64 in the message masks and shifts (lines 195, 544, 555). -/
def m_input_value_bits : Nat := 64

/-- Modelled from the spec: scalar built from a big-endian byte vector
(`Scalar(std::vector<uint8_t>)`). -/
def scalarOfBytes (bs : List Nat) : Scalar :=
  ((bs.foldl (fun a b => a * 256 + b) 0 : Nat) : Scalar)

/-- Modelled from the spec: field inversion (`Scalar::Invert`).  The two
short-circuit branches return the same value the general inverse does and
keep the definition reducible by evaluation at those arguments. -/
def sInvert (a : Scalar) : Scalar :=
  if a = 0 then 0 else if a = 1 then 1 else a⁻¹

/-- Modelled from the spec: bitwise AND on the scalar representation
(`Scalar::operator&`). -/
def sAnd (a b : Scalar) : Scalar := ((a.val &&& b.val : Nat) : Scalar)

/-- Modelled from the spec: bitwise OR on the scalar representation
(`Scalar::operator|`). -/
def sOr (a b : Scalar) : Scalar := ((a.val ||| b.val : Nat) : Scalar)

/-- Modelled from the spec: left shift on the scalar representation
(`Scalar::operator<<`). -/
def sShl (a : Scalar) (n : Nat) : Scalar := ((a.val <<< n : Nat) : Scalar)

/-- Modelled from the spec: right shift on the scalar representation
(`Scalar::operator>>`). -/
def sShr (a : Scalar) (n : Nat) : Scalar := ((a.val >>> n : Nat) : Scalar)

/-- Modelled from the spec: 32-byte big-endian serialization of a scalar
(`Scalar::GetVch`). -/
def sGetVch (s : Scalar) : List Nat :=
  (List.range 32).map (fun i => s.val / 256 ^ (31 - i) % 256)

/-- Fuel-driven little-endian binary decomposition of a natural number. -/
def bitsF : Nat → Nat → List Bool
  | 0, _ => []
  | f + 1, n => if n = 0 then [] else (n % 2 == 1) :: bitsF f (n / 2)

/-- Modelled from the spec: `Scalar::GetBits`, the value in binary
(least-significant bit first, no leading zeros; spec section 4.3 step 3). -/
def sGetBits (s : Scalar) : List Bool := bitsF 256 s.val

/-- Elementwise sum of two scalar vectors (`Scalars::operator+`,
modelled from the spec; mismatched lengths truncate to the shorter). -/
def vAdd (a b : List Scalar) : List Scalar := List.zipWith (· + ·) a b

/-- Elementwise difference of two scalar vectors (`Scalars::operator-`). -/
def vSub (a b : List Scalar) : List Scalar := List.zipWith (· - ·) a b

/-- Elementwise (Hadamard) product of two scalar vectors (`Scalars::operator*`). -/
def vMul (a b : List Scalar) : List Scalar := List.zipWith (· * ·) a b

/-- Scalar vector scaled by a single scalar (`Scalars::operator*(Scalar)`). -/
def vScale (a : List Scalar) (x : Scalar) : List Scalar := a.map (· * x)

/-- Sum of a scalar vector (`Scalars::Sum`). -/
def vSum (a : List Scalar) : Scalar := a.foldl (· + ·) 0

/-- Inner product as the code writes it: `(a * b).Sum()`. -/
def innerProd (a b : List Scalar) : Scalar := vSum (vMul a b)

/-- Element access with the vector's default scalar (`Scalars::operator[]`). -/
def coGetD (a : List Scalar) (i : Nat) : Scalar := a.getD i 0

/-- Modelled from the spec: `Scalars::FirstNPow(base, n, start)`; by the
comments at `range_proof.cpp:390-391` the two-argument form returns the
`n+1` powers `base^0 .. base^n`, and the third argument shifts the first
exponent (`range_proof.cpp:239`). -/
def firstNPowFrom (base : Scalar) (n start : Nat) : List Scalar :=
  (List.range (n + 1)).map (fun i => base ^ (start + i))

/-- `Scalars::FirstNPow(base, n)` (two-argument form). -/
def firstNPow (base : Scalar) (n : Nat) : List Scalar := firstNPowFrom base n 0

/-- Static table `RangeProof::m_two_pows = FirstNPow(2, m_input_value_bits)`
(`range_proof.cpp:26`). -/
def m_two_pows : List Scalar := firstNPow 2 m_input_value_bits

/-- Static scalar `RangeProof::m_inner_prod_ones_and_two_pows`
(`range_proof.cpp:27-28`). -/
def m_inner_prod_ones_and_two_pows : Scalar :=
  vSum (vMul (List.replicate m_input_value_bits 1) m_two_pows)

/-- Modelled from the spec: a group element as a vector of coordinates over
the independent generator families `{G, H, Gi[i], Hi[i]}` (free module). -/
structure G1Point where
  cg : Scalar
  ch : Scalar
  cgi : List Scalar
  chi : List Scalar

/-- Coordinate list padded with zeros to length `n`. -/
def padTo (l : List Scalar) (n : Nat) : List Scalar :=
  l ++ List.replicate (n - l.length) 0

/-- Equality of coordinate lists up to trailing zeros. -/
def coEqB (a b : List Scalar) : Bool :=
  let m := max a.length b.length
  decide (padTo a m = padTo b m)

/-- Group addition (`G1Point::operator+`). -/
def pAdd (p q : G1Point) : G1Point :=
  ⟨p.cg + q.cg, p.ch + q.ch,
   vAdd (padTo p.cgi (max p.cgi.length q.cgi.length)) (padTo q.cgi (max p.cgi.length q.cgi.length)),
   vAdd (padTo p.chi (max p.chi.length q.chi.length)) (padTo q.chi (max p.chi.length q.chi.length))⟩

/-- Scalar multiplication (`G1Point::operator*`). -/
def pSmul (s : Scalar) (p : G1Point) : G1Point :=
  ⟨s * p.cg, s * p.ch, p.cgi.map (s * ·), p.chi.map (s * ·)⟩

/-- The group identity. -/
def pZero : G1Point := ⟨0, 0, [], []⟩

/-- Group-element equality (`G1Point::operator==`): equality of all
coordinates in the free module. -/
def pEqB (p q : G1Point) : Bool :=
  decide (p.cg = q.cg) && decide (p.ch = q.ch) && coEqB p.cgi q.cgi && coEqB p.chi q.chi

/-- `G1Point::IsUnity` (`range_proof.cpp:513`). -/
def isUnity (p : G1Point) : Bool := pEqB p pZero

/-- Sum of a vector of group elements (`G1Points::Sum`). -/
def pvSum (ps : List G1Point) : G1Point := ps.foldl pAdd pZero

/-- Elementwise scalar multiplication of a point vector by a scalar vector
(`G1Points::operator*(Scalars)`; mismatched lengths truncate). -/
def pvSmulVec (ps : List G1Point) (ss : List Scalar) : List G1Point :=
  List.zipWith (fun p s => pSmul s p) ps ss

/-- Point vector scaled by one scalar (`G1Points::operator*(Scalar)`). -/
def pvScale (ps : List G1Point) (x : Scalar) : List G1Point := ps.map (pSmul x)

/-- Pointwise sum of two point vectors (`G1Points::operator+`). -/
def pvAdd (ps qs : List G1Point) : List G1Point := List.zipWith pAdd ps qs

/-- Basis element for `Gi[i]`. -/
def unitGi (i : Nat) : G1Point := ⟨0, 0, List.replicate i 0 ++ [1], []⟩

/-- Basis element for `Hi[i]`. -/
def unitHi (i : Nat) : G1Point := ⟨0, 0, [], List.replicate i 0 ++ [1]⟩

/-- Modelled from the spec: the deterministic generator set delivered by the
Generator Factory (spec section 4.1).  The `Gi`/`Hi` vectors are modelled as
index functions; every use in the translated code reads only indices below
the real vectors' length. -/
structure Generators where
  G : G1Point
  H : G1Point
  Gi : Nat → G1Point
  Hi : Nat → G1Point

/-- Modelled from the spec: `GeneratorsFactory::GetInstance(token_id)`.
Determinism per token holds trivially; the claims under study never compare
generators across distinct tokens, so one shared basis is used. -/
def m_gf_GetInstance (_token_id : Nat) : Generators :=
  ⟨⟨1, 0, [], []⟩, ⟨0, 1, [], []⟩, unitGi, unitHi⟩

/-- Prefix of a generator family as a vector (`gens.Gi.get()` viewed at the
length actually consumed by the zip-truncating vector operations). -/
def gensVec (f : Nat → G1Point) (n : Nat) : List G1Point := (List.range n).map f

/-- One value appended to the Fiat-Shamir transcript (`CHashWriter <<`). -/
inductive TItem where
  | pt (p : G1Point)
  | sc (s : Scalar)

/-- The transcript state: the sequence of values appended so far. -/
abbrev Transcript := List TItem

/-- Modelled from the spec: `CHashWriter::GetHash` as an oracle from the
appended sequence to a challenge scalar (spec section 4.2). -/
abbrev HashOracle := Transcript → Scalar

deriving instance DecidableEq for G1Point
deriving instance DecidableEq for TItem

/-- Modelled from the spec: the configuration bounds consumed by the code
(`Config::m_max_message_size`, `m_max_input_values`, `m_max_prove_tries`);
the spec gives no concrete numbers, so they stay parameters. -/
structure Config where
  m_max_message_size : Nat
  m_max_input_values : Nat
  m_max_prove_tries : Nat

/-- The `std::runtime_error` construction failures of `Prove`
(spec section 7, ConstructionError). -/
inductive CErr where
  | msgTooLong
  | emptyValues
  | tooManyValues
  | retryExceeded
  | identityCheckFailed
deriving DecidableEq

/-- Modelled from the spec: the `Proof` struct (spec section 3).  The single
committed polynomial evaluation is `t_hat`; the code's member accesses
`proof.t_hat` and `proof.t` both denote it. -/
structure Proof where
  Vs : List G1Point
  Ls : List G1Point
  Rs : List G1Point
  A : G1Point
  S : G1Point
  T1 : G1Point
  T2 : G1Point
  tau_x : Scalar
  mu : Scalar
  t_hat : Scalar
  a : Scalar
  b : Scalar
deriving DecidableEq

/-- Fuel-driven floor base-2 logarithm: the number of halvings of `n`
until the value is at most 1 (`std::log2` on the powers of two used here). -/
def log2F : Nat → Nat → Nat
  | 0, _ => 0
  | f + 1, n => if n ≤ 1 then 0 else log2F f (n / 2) + 1

/-- `log2N n` counts the halvings of `n` down to 1. -/
def log2N (n : Nat) : Nat := log2F n n

/-- Modelled from the spec: `GetFirstPowerOf2GreaterOrEqTo` (spec 4.4:
"value_count rounded to power of two"). -/
def pow2Ceil (n : Nat) : Nat := if n ≤ 1 then 1 else 2 ^ (log2F n (n - 1) + 1)

/-- `RangeProof::GetInnerProdArgRounds` (`range_proof.cpp:109-114`). -/
def RangeProof.GetInnerProdArgRounds (num_input_values : Nat) : Nat :=
  log2N (pow2Ceil num_input_values) + log2N m_input_value_bits

/-- The flattened bit vector `aL` built at `range_proof.cpp:158-169`: for
each supplied value its binary decomposition followed by zero fill up to the
per-value bit width.  Note the code does NOT extend `aL` beyond the supplied
values (the TODO at line 170). -/
def buildAL (vs : List Scalar) : List Scalar :=
  vs.foldr (fun v acc =>
    ((sGetBits v).map (fun b => if b then (1 : Scalar) else 0) ++
     List.replicate (m_input_value_bits - (sGetBits v).length) 0) ++ acc) []

/-- Outcome of one pass over the `try_again` body of `Prove`. -/
inductive BodyOut where
  | retry (tr : Transcript) (Ls Rs : List G1Point)
  | fatal
  | done (p : Proof) (tr : Transcript)

/-- `RangeProof::InnerProductArgument` (`range_proof.cpp:33-107`), with the
output vectors `proof.Ls`/`proof.Rs` and the transcript threaded explicitly.
The recursion carries fuel (always called with `fuel = n_prime`, which
bounds the number of halvings); `.inl` is the zero-challenge failure path
of line 81-82 and carries the partially extended `Ls`/`Rs`/transcript that
the in-place mutation of the C++ leaves behind. -/
def ipaLoop (o : HashOracle) (H : G1Point) (x_ip : Scalar) (sf : List Scalar) :
    Nat → Nat → Nat → List G1Point → List G1Point → List Scalar → List Scalar →
    List G1Point → List G1Point → Transcript →
    Sum (List G1Point × List G1Point × Transcript)
        (List G1Point × List G1Point × Scalar × Scalar × Transcript)
  | 0, nPrime, round, gp, hp, ap, bp, Ls, Rs, tr =>
    if nPrime ≤ 1 then .inr (Ls, Rs, coGetD ap 0, coGetD bp 0, tr) else .inl (Ls, Rs, tr)
  | fuel + 1, nPrime, round, gp, hp, ap, bp, Ls, Rs, tr =>
    if nPrime ≤ 1 then .inr (Ls, Rs, coGetD ap 0, coGetD bp 0, tr) else
      let n2 := nPrime / 2
      let cL := innerProd (ap.take n2) (bp.drop n2)
      let cR := innerProd (ap.drop n2) (bp.take n2)
      let Lv := pAdd (pAdd (pvSum (pvSmulVec (gp.drop n2) (ap.take n2)))
                  (pvSum (pvSmulVec (hp.take n2)
                    (if round = 0 then vMul bp (sf.take n2) else bp.drop n2))))
                (pSmul (cL * x_ip) H)
      let Ls1 := Ls ++ [Lv]
      let Rv := pAdd (pAdd (pvSum (pvSmulVec (gp.take n2) (ap.drop n2)))
                  (pvSum (pvSmulVec (hp.drop n2)
                    (if round = 0 then vMul bp (sf.drop n2) else bp.take n2))))
                (pSmul (cR * x_ip) H)
      let Rs1 := Rs ++ [Rv]
      let tr1 := tr ++ [TItem.pt (Ls1.getD round pZero), TItem.pt (Rs1.getD round pZero)]
      let x := o tr1
      if x = 0 then .inl (Ls1, Rs1, tr1) else
      let xInv := sInvert x
      let gp1 := if 1 < n2 then pvAdd (pvScale (gp.take n2) xInv) (pvScale (gp.drop n2) x) else gp
      let hp1 := if 1 < n2 then
          pvAdd (pvSmulVec (hp.take n2) (vScale sf x)) (pvSmulVec (hp.drop n2) (vScale sf xInv))
        else hp
      let ap1 := vAdd (vScale (ap.take n2) x) (vScale (ap.drop n2) xInv)
      let bp1 := vAdd (vScale (bp.take n2) xInv) (vScale (bp.drop n2) x)
      ipaLoop o H x_ip sf fuel n2 (round + 1) gp1 hp1 ap1 bp1 Ls1 Rs1 tr1

/-- The inputs and carried state of one pass over the body of `Prove`'s
`try_again` loop (`range_proof.cpp:179-313`).  `rnd` is the
secure-randomness oracle behind `Scalars::RandVec` (attempt number, side,
index); `tr`, `Ls`, `Rs` are the transcript and the in-place
`proof.Ls`/`proof.Rs` state surviving from earlier attempts (the hasher is
not cleared on retry, line 179, and the proof object is allocated outside
the loop, line 136). -/
structure PBArgs where
  o : HashOracle
  rnd : Nat → Nat → Nat → Scalar
  nonce : Nat → Scalar
  gens : Generators
  vs : List Scalar
  message : List Nat
  MN : Nat
  aL : List Scalar
  aR : List Scalar
  gammas : List Scalar
  Vs : List G1Point
  attempt : Nat
  tr : Transcript
  Ls : List G1Point
  Rs : List G1Point

/-- `msg1_scalar`: the message trimmed to its first 23 bytes
(`range_proof.cpp:189-193`). -/
def pbMsg1Scalar (c : PBArgs) : Scalar := scalarOfBytes (c.message.take 23)

/-- `msg1_v0 = (msg1_scalar << 64) | vs[0]` (`range_proof.cpp:195`). -/
def pbMsg1v0 (c : PBArgs) : Scalar :=
  sOr (sShl (pbMsg1Scalar c) m_input_value_bits) (c.vs.getD 0 0)

/-- `alpha = nonce.GetHashWithSalt(1) + msg1_v0` (`range_proof.cpp:197-198`). -/
def pbAlpha (c : PBArgs) : Scalar := c.nonce 1 + pbMsg1v0 c

/-- `proof.A = H*alpha + <Gi,aL> + <Hi,aR>` (`range_proof.cpp:201`). -/
def pbA (c : PBArgs) : G1Point :=
  pAdd (pAdd (pSmul (pbAlpha c) c.gens.H)
      (pvSum (pvSmulVec (gensVec c.gens.Gi c.aL.length) c.aL)))
    (pvSum (pvSmulVec (gensVec c.gens.Hi c.aR.length) c.aR))

/-- `sL = Scalars::RandVec(m_input_value_bits, true)` (`range_proof.cpp:205`). -/
def pbSL (c : PBArgs) : List Scalar :=
  (List.range m_input_value_bits).map (c.rnd c.attempt 0)

/-- `sR = Scalars::RandVec(m_input_value_bits, true)` (`range_proof.cpp:206`). -/
def pbSR (c : PBArgs) : List Scalar :=
  (List.range m_input_value_bits).map (c.rnd c.attempt 1)

/-- `rho = nonce.GetHashWithSalt(2)` (`range_proof.cpp:208`). -/
def pbRho (c : PBArgs) : Scalar := c.nonce 2

/-- `proof.S = H*rho + <Gi,sL> + <Hi,sR>` (`range_proof.cpp:210`). -/
def pbS (c : PBArgs) : G1Point :=
  pAdd (pAdd (pSmul (pbRho c) c.gens.H)
      (pvSum (pvSmulVec (gensVec c.gens.Gi (pbSL c).length) (pbSL c))))
    (pvSum (pvSmulVec (gensVec c.gens.Hi (pbSR c).length) (pbSR c)))

/-- The transcript after `transcript << A << S` (`range_proof.cpp:213-214`). -/
def pbTrY (c : PBArgs) : Transcript := c.tr ++ [TItem.pt (pbA c), TItem.pt (pbS c)]

/-- Challenge `y` (`range_proof.cpp:216`). -/
def pbY (c : PBArgs) : Scalar := c.o (pbTrY c)

/-- The transcript after `transcript << y` (`range_proof.cpp:219`). -/
def pbTrZ (c : PBArgs) : Transcript := pbTrY c ++ [TItem.sc (pbY c)]

/-- Challenge `z` (`range_proof.cpp:221`). -/
def pbZ (c : PBArgs) : Scalar := c.o (pbTrZ c)

/-- `FirstNPow(z, concat_input_values_in_bits)` (`range_proof.cpp:231`). -/
def pbZTotal (c : PBArgs) : List Scalar := firstNPow (pbZ c) c.MN

/-- `l0 = aL - z_value_total_bits` (`range_proof.cpp:232`); `l1` is `sL`
(line 235). -/
def pbL0 (c : PBArgs) : List Scalar := vSub c.aL (pbZTotal c)

/-- `z_pows = FirstNPow(z, concat_input_values_in_bits, 2)` (`range_proof.cpp:239`). -/
def pbZPows (c : PBArgs) : List Scalar := firstNPowFrom (pbZ c) c.MN 2

/-- `z_n_times_two_n` (`range_proof.cpp:242-248`): note the outer loop runs
over all `concat_input_values_in_bits` positions, not just the input
values. -/
def pbZnTwoN (c : PBArgs) : List Scalar :=
  (List.range c.MN).foldr (fun i acc =>
    (List.range m_input_value_bits).map
      (fun b => coGetD (pbZPows c) i * coGetD m_two_pows b) ++ acc) []

/-- `FirstNPow(y, concat_input_values_in_bits)` (`range_proof.cpp:250`). -/
def pbYTotal (c : PBArgs) : List Scalar := firstNPow (pbY c) c.MN

/-- `r0 = y^n o (aR + z 1^n) + z_n_times_two_n` (`range_proof.cpp:251`). -/
def pbR0 (c : PBArgs) : List Scalar :=
  vAdd (vMul (pbYTotal c) (vAdd c.aR (pbZTotal c))) (pbZnTwoN c)

/-- `r1 = y^n o sR` (`range_proof.cpp:252`). -/
def pbR1 (c : PBArgs) : List Scalar := vMul (pbYTotal c) (pbSR c)

/-- `t1 = <l0,r1> + <l1,r0>` (`range_proof.cpp:255`). -/
def pbT1s (c : PBArgs) : Scalar :=
  innerProd (pbL0 c) (pbR1 c) + innerProd (pbSL c) (pbR0 c)

/-- `t2 = <l1,r1>` (`range_proof.cpp:256`). -/
def pbT2s (c : PBArgs) : Scalar := innerProd (pbSL c) (pbR1 c)

/-- `tau1 = nonce.GetHashWithSalt(3) + msg2_scalar` (`range_proof.cpp:259,263-268`). -/
def pbTau1 (c : PBArgs) : Scalar := c.nonce 3 + scalarOfBytes (c.message.drop 23)

/-- `tau2 = nonce.GetHashWithSalt(4)` (`range_proof.cpp:260`). -/
def pbTau2 (c : PBArgs) : Scalar := c.nonce 4

/-- `proof.T1 = G*t1 + H*tau1` (`range_proof.cpp:270`). -/
def pbT1 (c : PBArgs) : G1Point :=
  pAdd (pSmul (pbT1s c) c.gens.G) (pSmul (pbTau1 c) c.gens.H)

/-- `proof.T2 = G*t2 + H*tau2` (`range_proof.cpp:271`). -/
def pbT2 (c : PBArgs) : G1Point :=
  pAdd (pSmul (pbT2s c) c.gens.G) (pSmul (pbTau2 c) c.gens.H)

/-- The transcript after `transcript << z << T1 << T2`
(`range_proof.cpp:224,274-275`). -/
def pbTrX (c : PBArgs) : Transcript :=
  pbTrZ c ++ [TItem.sc (pbZ c), TItem.pt (pbT1 c), TItem.pt (pbT2 c)]

/-- Challenge `x` (`range_proof.cpp:277`). -/
def pbX (c : PBArgs) : Scalar := c.o (pbTrX c)

/-- `l = l0 + l1*x` (`range_proof.cpp:283`). -/
def pbL (c : PBArgs) : List Scalar := vAdd (pbL0 c) (vScale (pbSL c) (pbX c))

/-- `r = r0 + r1*x` (`range_proof.cpp:284`). -/
def pbR (c : PBArgs) : List Scalar := vAdd (pbR0 c) (vScale (pbR1 c) (pbX c))

/-- `t_hat = <l,r>` (`range_proof.cpp:287`). -/
def pbThat (c : PBArgs) : Scalar := innerProd (pbL c) (pbR c)

/-- `t0 = <l0,r0>` (`range_proof.cpp:290`). -/
def pbT0 (c : PBArgs) : Scalar := innerProd (pbL0 c) (pbR0 c)

/-- `t_of_x = t0 + t1*x + t2*x^2` (`range_proof.cpp:291`). -/
def pbTofX (c : PBArgs) : Scalar :=
  pbT0 c + pbT1s c * pbX c + pbT2s c * (pbX c * pbX c)

/-- `tau_x = tau2*x^2 + tau1*x + (z_pows * gammas).Sum()` (`range_proof.cpp:297`). -/
def pbTaux (c : PBArgs) : Scalar :=
  pbTau2 c * (pbX c * pbX c) + pbTau1 c * pbX c + vSum (vMul (pbZPows c) c.gammas)

/-- `mu = alpha + rho*x` (`range_proof.cpp:298`). -/
def pbMu (c : PBArgs) : Scalar := pbAlpha c + pbRho c * pbX c

/-- The transcript after `transcript << x << tau_x << mu << t`
(`range_proof.cpp:301-304`). -/
def pbTrXip (c : PBArgs) : Transcript :=
  pbTrX c ++ [TItem.sc (pbX c), TItem.sc (pbTaux c), TItem.sc (pbMu c), TItem.sc (pbThat c)]

/-- Challenge `x_ip` (`range_proof.cpp:306`). -/
def pbXip (c : PBArgs) : Scalar := c.o (pbTrXip c)

/-- One pass over the `try_again` body of `Prove`
(`range_proof.cpp:179-313`): derive the commitments and challenges in
order, retry on any zero challenge (with the transcript and the partially
filled `proof.Ls`/`proof.Rs` carried over), fail fatally if equation (60)
does not hold, otherwise run the inner-product argument and assemble the
proof. -/
def proveBody (c : PBArgs) : BodyOut :=
  if pbY c = 0 then .retry (pbTrY c) c.Ls c.Rs else
  if pbZ c = 0 then .retry (pbTrZ c) c.Ls c.Rs else
  if pbX c = 0 then .retry (pbTrX c) c.Ls c.Rs else
  if pbThat c ≠ pbTofX c then .fatal else
  if pbXip c = 0 then .retry (pbTrXip c) c.Ls c.Rs else
  match ipaLoop c.o c.gens.H (pbXip c) (firstNPow (sInvert (pbY c)) c.MN) c.MN c.MN 0
      (gensVec c.gens.Gi c.MN) (gensVec c.gens.Hi c.MN) (pbL c) (pbR c) c.Ls c.Rs (pbTrXip c) with
  | .inl (Ls1, Rs1, tr6) => .retry tr6 Ls1 Rs1
  | .inr (Ls1, Rs1, a, b, tr6) =>
      .done ⟨c.Vs, Ls1, Rs1, pbA c, pbS c, pbT1 c, pbT2 c, pbTaux c, pbMu c, pbThat c, a, b⟩ tr6

/-- The carried state of `c` replaced for the next attempt. -/
def pbAt (c : PBArgs) (attempt : Nat) (tr : Transcript) (Ls Rs : List G1Point) : PBArgs :=
  ⟨c.o, c.rnd, c.nonce, c.gens, c.vs, c.message, c.MN, c.aL, c.aR, c.gammas, c.Vs,
   attempt, tr, Ls, Rs⟩

/-- The bounded `try_again` loop of `Prove` (`range_proof.cpp:177-183`):
`gas` is the remaining budget out of `Config::m_max_prove_tries`; the
second component counts the attempts whose body actually ran. -/
def proveLoop (c : PBArgs) :
    Nat → Nat → Transcript → List G1Point → List G1Point →
    Except CErr (Proof × Transcript) × Nat
  | 0, _, _, _, _ => (.error .retryExceeded, 0)
  | gas + 1, attempt, tr, Ls, Rs =>
    match proveBody (pbAt c attempt tr Ls Rs) with
    | .retry tr1 Ls1 Rs1 =>
        let rec1 := proveLoop c gas (attempt + 1) tr1 Ls1 Rs1
        (rec1.1, rec1.2 + 1)
    | .fatal => (.error .identityCheckFailed, 1)
    | .done p tr1 => (.ok (p, tr1), 1)

/-- `RangeProof::Prove` (`range_proof.cpp:116-314`) with the final
transcript exposed and the number of executed attempts in the second
component.  The precondition checks of lines 122-130 come first; the
value commitments and `aL`/`aR` are computed once, before the retry loop. -/
def proveRun (cfg : Config) (o : HashOracle) (rnd : Nat → Nat → Nat → Scalar)
    (nonce : Nat → Scalar) (vs : List Scalar) (message : List Nat) (token_id : Nat) :
    Except CErr (Proof × Transcript) × Nat :=
  if message.length > cfg.m_max_message_size then (.error .msgTooLong, 0) else
  if vs.length = 0 then (.error .emptyValues, 0) else
  if vs.length > cfg.m_max_input_values then (.error .tooManyValues, 0) else
  let MN := pow2Ceil vs.length * m_input_value_bits
  let gammas := (List.range vs.length).map (fun i => nonce (100 + i))
  let gens := m_gf_GetInstance token_id
  let Vs := List.zipWith pAdd (gammas.map (fun g => pSmul g gens.H))
              (vs.map (fun v => pSmul v gens.G))
  let aL := buildAL vs
  let aR := vSub aL (firstNPow 1 MN)
  proveLoop ⟨o, rnd, nonce, gens, vs, message, MN, aL, aR, gammas, Vs, 1, Vs.map TItem.pt, [], []⟩
    cfg.m_max_prove_tries 1 (Vs.map TItem.pt) [] []

/-- `RangeProof::Prove` restricted to its C++ signature: the proof or a
construction error. -/
def RangeProof.Prove (cfg : Config) (o : HashOracle) (rnd : Nat → Nat → Nat → Scalar)
    (nonce : Nat → Scalar) (vs : List Scalar) (message : List Nat) (token_id : Nat) :
    Except CErr Proof :=
  ((proveRun cfg o rnd nonce vs message token_id).1).map (fun pr => pr.1)


/-- One step of the `take_char` loop of `RangeProof::GetTrimmedVch`
(`range_proof.cpp:322-326`). -/
def trimStep (acc : Bool × List Nat) (c : Nat) : Bool × List Nat :=
  let tk := acc.1 || decide (c ≠ 0)
  (tk, if tk then acc.2 ++ [c] else acc.2)

/-- `RangeProof::GetTrimmedVch` (`range_proof.cpp:317-328`): serialize and
drop the leading zero bytes, via the `take_char` fold of the source. -/
def RangeProof.GetTrimmedVch (s : Scalar) : List Nat :=
  ((sGetVch s).foldl trimStep ((false, []) : Bool × List Nat)).2

/-- Modelled from the spec: `TxInToRecover` (spec section 3), the proof
fields plus replayed challenges and the shared secret needed for recovery;
the secret (nonce) is modelled by its salted-hash oracle
(`G1Point::GetHashWithSalt`). -/
structure TxInToRecover where
  index : Nat
  Vs : List G1Point
  Ls : List G1Point
  Rs : List G1Point
  mu : Scalar
  tau_x : Scalar
  x : Scalar
  z : Scalar
  nonce : Nat → Scalar

/-- Modelled from the spec: `RecoveredTxInput` (spec section 4.6),
`{index, amount, blinding_factor, message}`. -/
structure RecoveredTxInput where
  index : Nat
  amount : Nat
  gamma : Scalar
  message : List Nat
deriving DecidableEq

/-- The 64-bit all-ones mask constant of `range_proof.cpp:544`. -/
def sOf64Mask : Scalar := ((0xFFFFFFFFFFFFFFFF : Nat) : Scalar)

/-- The first-value commitment recomputed by the recovery engine
(`range_proof.cpp:547`): note the code places the blinding on `G` and the
value on `H`. -/
def recoverCommit (gens : Generators) (tx : TxInToRecover) : G1Point :=
  let input_value0 := sAnd ((tx.mu - tx.nonce 2 * tx.x) - tx.nonce 1) sOf64Mask
  pAdd (pSmul (tx.nonce 100) gens.G) (pSmul input_value0 gens.H)

/-- The loop body of `RangeProof::RecoverTxIns` for one input
(`range_proof.cpp:523-579`); `none` models `continue`. -/
def recoverOneTxIn (gens : Generators) (tx : TxInToRecover) : Option RecoveredTxInput :=
  if tx.Vs.length = 0 ∨ ¬(0 < tx.Ls.length ∧ tx.Ls.length = tx.Rs.length) then none else
  let alpha := tx.nonce 1
  let rho := tx.nonce 2
  let tau1 := tx.nonce 3
  let tau2 := tx.nonce 4
  let input_value0_gamma := tx.nonce 100
  let message_v0 := (tx.mu - rho * tx.x) - alpha
  let input_value0 := sAnd message_v0 sOf64Mask
  if pEqB (recoverCommit gens tx) (tx.Vs.getD 0 pZero) then
    let msg1 := RangeProof.GetTrimmedVch (sShr message_v0 64)
    let msg2_scalar :=
      (tx.tau_x - tau2 * (tx.x * tx.x) - (tx.z * tx.z) * input_value0_gamma) * sInvert tx.x - tau1
    let msg2 := RangeProof.GetTrimmedVch msg2_scalar
    some ⟨tx.index, input_value0.val, input_value0_gamma, msg1 ++ msg2⟩
  else none

/-- `RangeProof::RecoverTxIns` (`range_proof.cpp:516-582`): per-input
recovery, silently skipping unrecoverable inputs; the C++ loop with
`continue` and `push_back` is the filterMap of the per-input body. -/
def RangeProof.RecoverTxIns (tx_ins : List TxInToRecover) (token_id : Nat) :
    List RecoveredTxInput :=
  tx_ins.filterMap (recoverOneTxIn (m_gf_GetInstance token_id))

/-- `RangeProof::ValidateProofsBySizes` (`range_proof.cpp:330-351`). -/
def RangeProof.ValidateProofsBySizes (cfg : Config)
    (indexed_proofs : List (Nat × Proof)) (num_rounds : Nat) : Bool :=
  indexed_proofs.all (fun ip =>
    decide (ip.2.Vs.length ≠ 0) &&
    decide (ip.2.Vs.length ≤ cfg.m_max_input_values) &&
    decide (ip.2.Ls.length = num_rounds) &&
    decide (ip.2.Ls.length = ip.2.Rs.length))

/-- Modelled from the spec: `ProofWithDerivedValues` (spec sections 3 and
4.5 stage 2), the challenges re-derived by replaying the proof's public
fields through a fresh transcript in the prover's append order. -/
structure PWDV where
  proof : Proof
  y : Scalar
  z : Scalar
  x : Scalar
  x_ip : Scalar
  inv_y : Scalar
  ws : List Scalar
  inv_ws : List Scalar
  num_rounds : Nat
  num_input_values_power_2 : Nat
  concat_input_values_in_bits : Nat

/-- Per-round challenge replay for the IPA: appends `Ls[i]`, `Rs[i]` and
derives the round challenge, `count` times. -/
def replayRounds (o : HashOracle) (Ls Rs : List G1Point) :
    Nat → Nat → Transcript → List Scalar → List Scalar × Transcript
  | 0, _, tr, acc => (acc, tr)
  | c + 1, i, tr, acc =>
    let tr1 := tr ++ [TItem.pt (Ls.getD i pZero), TItem.pt (Rs.getD i pZero)]
    replayRounds o Ls Rs c (i + 1) tr1 (acc ++ [o tr1])

/-- Modelled from the spec: `ProofWithDerivedValues::Build` (spec section
4.5 stage 2), replaying the transcript over the proof's public fields in
the exact prover order of spec section 6. -/
def PWDV.Build (o : HashOracle) (proof : Proof) (num_rounds : Nat) : PWDV :=
  let M := pow2Ceil proof.Vs.length
  let MN := M * m_input_value_bits
  let tr1 := proof.Vs.map TItem.pt ++ [TItem.pt proof.A, TItem.pt proof.S]
  let y := o tr1
  let tr2 := tr1 ++ [TItem.sc y]
  let z := o tr2
  let tr3 := tr2 ++ [TItem.sc z, TItem.pt proof.T1, TItem.pt proof.T2]
  let x := o tr3
  let tr4 := tr3 ++ [TItem.sc x, TItem.sc proof.tau_x, TItem.sc proof.mu, TItem.sc proof.t_hat]
  let x_ip := o tr4
  let ws := (replayRounds o proof.Ls proof.Rs num_rounds 0 tr4 []).1
  ⟨proof, y, z, x, x_ip, sInvert y, ws, ws.map sInvert, num_rounds, M, MN⟩

/-- `VerifyLoop1Result` (`range_proof.cpp:353-371`). -/
structure VerifyLoop1Result where
  max_num_rounds : Nat
  Vs_size_sum : Nat
  proof_derivs : List PWDV

/-- `RangeProof::VerifyLoop1` (`range_proof.cpp:353-371`). -/
def RangeProof.VerifyLoop1 (o : HashOracle) (indexed_proofs : List (Nat × Proof))
    (num_rounds : Nat) : VerifyLoop1Result :=
  indexed_proofs.foldl (fun res ip =>
    ⟨max res.max_num_rounds ip.2.Ls.length,
     res.Vs_size_sum + ip.2.Vs.length,
     res.proof_derivs ++ [PWDV.Build o ip.2 num_rounds]⟩)
    ⟨0, 0, []⟩

/-- `VerifyLoop2Result` (`range_proof.cpp:373-377`); the generator-vector
coefficient rows `z4`/`z5` are modelled as total maps defaulting to zero
(their sizing is owned by code outside the translated unit). -/
structure VerifyLoop2Result where
  y0 : Scalar
  y1 : Scalar
  z1 : Scalar
  z3 : Scalar
  z4 : Nat → Scalar
  z5 : Nat → Scalar
  multi_exp : List G1Point

/-- The `w_cache` table of `range_proof.cpp:414-425`, including the
double-step descending index walk of the source. -/
def wCacheBuild (p : PWDV) : List Scalar :=
  let wc0 := ((List.replicate (2 ^ p.num_rounds) (1 : Scalar)).set 0 (coGetD p.inv_ws 0)).set 1 (coGetD p.ws 0)
  (List.range (p.num_rounds - 1)).foldl (fun wc j0 =>
    let j := j0 + 1
    let sl := 2 ^ (j + 1)
    ((List.range (sl / 2)).reverse).foldl (fun wc k =>
      let s := 2 * k + 1
      let wc1 := wc.set s (coGetD wc (s / 2) * coGetD p.ws j)
      wc1.set (s - 1) (coGetD wc1 (s / 2) * coGetD p.inv_ws j)) wc) wc0

/-- The per-bit-position accumulation state of `range_proof.cpp:427-461`. -/
structure Loop2Inner where
  z4 : Nat → Scalar
  z5 : Nat → Scalar
  y_inv_pow : Scalar
  y_pow : Scalar

/-- `RangeProof::VerifyLoop2` (`range_proof.cpp:373-472`).  `wOr` models the
fresh random batching weights drawn by `Scalar::Rand` per proof.  The C++
routine builds `res` but falls through without a visible return; modelled
from the spec (section 9 flags this): the accumulated result is returned. -/
def RangeProof.VerifyLoop2 (wOr : Nat → Scalar × Scalar) (proof_derivs : List PWDV) :
    VerifyLoop2Result :=
  (proof_derivs.foldl (fun (st : VerifyLoop2Result × Nat) p =>
    let res := st.1
    let M := p.num_input_values_power_2
    let MN := p.concat_input_values_in_bits
    let weight_y := (wOr st.2).1
    let weight_z := (wOr st.2).2
    let y0 := res.y0 - p.proof.tau_x * weight_y
    let z_pow := firstNPowFrom p.z M 3
    let ip1y := vSum (firstNPow p.y (MN - 1))
    let k0 := -(coGetD z_pow 0 * ip1y)
    let k := (List.range M).foldl (fun k i0 =>
      k - coGetD z_pow (i0 + 1) * m_inner_prod_ones_and_two_pows) k0
    let y1 := res.y1 + (p.proof.t_hat - (k + p.z * ip1y)) * weight_y
    let me1 := res.multi_exp ++
      (List.range p.proof.Vs.length).map (fun i =>
        pSmul (coGetD z_pow i * weight_y) (p.proof.Vs.getD i pZero)) ++
      [pSmul (p.x * weight_y) p.proof.T1,
       pSmul (p.x * p.x * weight_y) p.proof.T2,
       pSmul weight_z p.proof.A,
       pSmul (p.x * weight_z) p.proof.S]
    let w_cache := wCacheBuild p
    let inner := (List.range MN).foldl (fun (ist : Loop2Inner) i =>
      let g_scalar := p.proof.a * coGetD w_cache i + p.z
      let h0 := if i = 0 then p.proof.b else p.proof.b * ist.y_inv_pow
      let h1 := h0 * coGetD w_cache ((MN - 1) ^^^ i)
      let tmp := coGetD z_pow (2 + i / m_input_value_bits) *
        coGetD m_two_pows (i % m_input_value_bits)
      let h2 := if i = 0 then h1 - (tmp + p.z) else h1 - ((tmp + p.z * ist.y_pow) * ist.y_inv_pow)
      let z4n : Nat → Scalar := fun j => if j = i then ist.z4 j - g_scalar * weight_z else ist.z4 j
      let z5n : Nat → Scalar := fun j => if j = i then ist.z5 j - h2 * weight_z else ist.z5 j
      let yn : Scalar × Scalar :=
        if i = 0 then (p.inv_y, p.y)
        else if i ≠ MN - 1 then (ist.y_inv_pow * p.inv_y, ist.y_pow * p.y)
        else (ist.y_inv_pow, ist.y_pow)
      ⟨z4n, z5n, yn.1, yn.2⟩) ⟨res.z4, res.z5, 1, 1⟩
    let z1 := res.z1 + p.proof.mu * weight_z
    let me2 := me1 ++ (List.range p.num_rounds).foldr (fun i acc =>
      pSmul (coGetD p.ws i * coGetD p.ws i * weight_z) (p.proof.Ls.getD i pZero) ::
      pSmul (coGetD p.inv_ws i * coGetD p.inv_ws i * weight_z) (p.proof.Rs.getD i pZero) :: acc) []
    let z3 := res.z3 + (p.proof.t_hat - p.proof.a * p.proof.b) * p.x_ip * weight_z
    (⟨y0, y1, z1, z3, inner.z4, inner.z5, me2⟩, st.2 + 1))
    (⟨0, 0, 0, 0, fun _ => 0, fun _ => 0, []⟩, 0)).1

/-- `RangeProof::Verify` (`range_proof.cpp:474-514`).  Note line 478 passes
`Config::m_input_value_bits` - not the proofs' value counts - to
`GetInnerProdArgRounds`. -/
def RangeProof.Verify (cfg : Config) (o : HashOracle) (wOr : Nat → Scalar × Scalar)
    (indexed_proofs : List (Nat × Proof)) (token_id : Nat) : Bool :=
  let num_rounds := RangeProof.GetInnerProdArgRounds m_input_value_bits
  if ¬ RangeProof.ValidateProofsBySizes cfg indexed_proofs num_rounds then false else
  let loop1 := RangeProof.VerifyLoop1 o indexed_proofs num_rounds
  let maxMN := 2 ^ loop1.max_num_rounds
  let l2 := RangeProof.VerifyLoop2 wOr loop1.proof_derivs
  let gens := m_gf_GetInstance token_id
  let me := l2.multi_exp ++
    [pSmul (l2.y0 - l2.z1) gens.G, pSmul (l2.z3 - l2.y1) gens.H] ++
    (List.range maxMN).foldr (fun i acc =>
      pSmul (l2.z4 i) (gens.Gi i) :: pSmul (l2.z5 i) (gens.Hi i) :: acc) []
  isUnity (pvSum me)

/-- `Ls`/`Rs` interleaved per round, as fed to the transcript. -/
def interleavePts : List G1Point → List G1Point → Transcript
  | a :: as, b :: bs => TItem.pt a :: TItem.pt b :: interleavePts as bs
  | _, _ => []

/-- The transcript sequence asserted by the spec (section 6): `Vs[] → A → S
→ y → z → T1 → T2 → x → tau_x → mu → t_hat → Ls[]/Rs[] interleaved`. -/
def claimedTranscript (p : Proof) (y z x : Scalar) : Transcript :=
  p.Vs.map TItem.pt ++
  [TItem.pt p.A, TItem.pt p.S, TItem.sc y, TItem.sc z, TItem.pt p.T1, TItem.pt p.T2,
   TItem.sc x, TItem.sc p.tau_x, TItem.sc p.mu, TItem.sc p.t_hat] ++
  interleavePts p.Ls p.Rs

/-- A plausible configuration (the spec fixes no numbers). -/
def cfg1 : Config := ⟨54, 16, 100⟩

/-- The same configuration with a retry budget of one. -/
def cfgT1 : Config := ⟨54, 16, 1⟩

/-- A transcript hash oracle that never yields the zero challenge. -/
def oracleOne : HashOracle := fun _ => 1

/-- The synthetic always-zero transcript oracle of spec section 8
("Termination"). -/
def oracleZero : HashOracle := fun _ => 0

/-- An oracle returning the zero challenge exactly at the first
inner-product round of the first attempt for a one-value proof. -/
def oracle13 : HashOracle := fun tr => if tr.length = 13 then 0 else 1

/-- An oracle returning the zero challenge exactly at the first `z`
derivation for a one-value proof. -/
def oracleZ4 : HashOracle := fun tr => if tr.length = 4 then 0 else 1

/-- Degenerate blinding-vector randomness. -/
def rnd0 : Nat → Nat → Nat → Scalar := fun _ _ _ => 0

/-- A concrete salted-hash family standing for a shared secret. -/
def nonce1 : Nat → Scalar := fun s => ((s + 1 : Nat) : Scalar)

/-- A second concrete salted-hash family. -/
def nonce0 : Nat → Scalar := fun s => ((s : Nat) : Scalar)

/-- Batch weights fixed to one. -/
def wOne : Nat → Scalar × Scalar := fun _ => (1, 1)

/-- An 11-byte ASCII message ("Hello world"). -/
def msg11 : List Nat := [72, 101, 108, 108, 111, 32, 119, 111, 114, 108, 100]

/-- A proof-shaped value with one commitment and six rounds: the shape an
honest single-value proof has. -/
def proofSixRounds : Proof :=
  ⟨[unitGi 0], List.replicate 6 pZero, List.replicate 6 pZero,
   pZero, pZero, pZero, pZero, 0, 0, 0, 0, 0⟩

/-- A proof-shaped value with one commitment and twelve rounds. -/
def proofTwelveRounds : Proof :=
  ⟨[unitGi 0], List.replicate 12 pZero, List.replicate 12 pZero,
   pZero, pZero, pZero, pZero, 0, 0, 0, 0, 0⟩

/-- The byte string `0x00 0x41`: a message whose first byte is zero. -/
def leadingZeroMsg : List Nat := [0, 65]

/-- The packed `(message || 64-bit v0)` scalar an honest prover builds for
value 7 and the message `leadingZeroMsg` (`range_proof.cpp:195`). -/
def craftedMsgV0 : Scalar := sOr (sShl (scalarOfBytes leadingZeroMsg) m_input_value_bits) 7

/-- A recoverable input assembled exactly as an honest prover with secret
`nonce0`, challenges `x = z = 1`, value 7 and message `leadingZeroMsg`
would export it, with `Vs[0]` chosen to satisfy the commitment equation the
recovery engine checks. -/
def craftedTxIn : TxInToRecover :=
  ⟨0,
   [pAdd (pSmul (nonce0 100) (m_gf_GetInstance 0).G) (pSmul 7 (m_gf_GetInstance 0).H)],
   [pZero], [pZero],
   nonce0 1 + nonce0 2 * 1 + craftedMsgV0,
   nonce0 4 * 1 + nonce0 3 * 1 + 1 * nonce0 100,
   1, 1, nonce0⟩

/-- The entry recovery produces from `craftedTxIn`: the leading zero byte
of the original message is lost. -/
def craftedOut : RecoveredTxInput := ⟨0, 7, nonce0 100, [65]⟩

/-- A `TxInToRecover` with no value commitments. -/
def emptyTxIn : TxInToRecover := ⟨0, [], [], [], 0, 0, 0, 0, nonce0⟩

/-- The `PBArgs` record `proveRun` assembles for a single-value call
`Prove([v], nonce, message, token_id)` on its first attempt. -/
def singleCtx (o : HashOracle) (rnd : Nat → Nat → Nat → Scalar) (nonce : Nat → Scalar)
    (v : Scalar) (message : List Nat) (tok : Nat) : PBArgs :=
  ⟨o, rnd, nonce, m_gf_GetInstance tok, [v], message,
   pow2Ceil 1 * m_input_value_bits,
   buildAL [v], vSub (buildAL [v]) (firstNPow 1 (pow2Ceil 1 * m_input_value_bits)),
   (List.range 1).map (fun i => nonce (100 + i)),
   List.zipWith pAdd
     (((List.range 1).map (fun i => nonce (100 + i))).map
       (fun g => pSmul g (m_gf_GetInstance tok).H))
     ([v].map (fun w => pSmul w (m_gf_GetInstance tok).G)),
   1,
   (List.zipWith pAdd
     (((List.range 1).map (fun i => nonce (100 + i))).map
       (fun g => pSmul g (m_gf_GetInstance tok).H))
     ([v].map (fun w => pSmul w (m_gf_GetInstance tok).G))).map TItem.pt,
   [], []⟩

/-! Helper lemmas. -/

theorem vSum_shift (l : List Scalar) (s : Scalar) :
    l.foldl (· + ·) s = s + l.foldl (· + ·) 0 := by
  induction l generalizing s with
  | nil => simp
  | cons a l ih =>
    simp only [List.foldl_cons]
    rw [ih (s + a), ih (0 + a)]
    ring

theorem vSum_cons (a : Scalar) (l : List Scalar) : vSum (a :: l) = a + vSum l := by
  simp only [vSum, List.foldl_cons]
  rw [vSum_shift]
  ring

theorem innerProd_cons (a b : Scalar) (l r : List Scalar) :
    innerProd (a :: l) (b :: r) = a * b + innerProd l r := by
  simp only [innerProd, vMul, List.zipWith_cons_cons]
  exact vSum_cons _ _

/-- Equation (60) of the paper as an identity of the code's vector algebra:
with aligned lengths, `<l0 + l1 x, r0 + r1 x>` expands to
`<l0,r0> + (<l0,r1> + <l1,r0>) x + <l1,r1> x^2`. -/
theorem t_identity (x : Scalar) :
    ∀ (l0 l1 r0 r1 : List Scalar),
      l1.length = l0.length → r0.length = l0.length → r1.length = l0.length →
      innerProd (vAdd l0 (vScale l1 x)) (vAdd r0 (vScale r1 x)) =
        innerProd l0 r0 + (innerProd l0 r1 + innerProd l1 r0) * x +
          innerProd l1 r1 * (x * x) := by
  intro l0
  induction l0 with
  | nil =>
    intro l1 r0 r1 h1 h0 hr1
    rw [List.length_nil] at h1 h0 hr1
    rw [List.length_eq_zero] at h1 h0 hr1
    subst h1; subst h0; subst hr1
    simp [innerProd, vMul, vAdd, vScale, vSum]
  | cons a l0 ih =>
    intro l1 r0 r1 h1 h0 hr1
    match l1, r0, r1, h1, h0, hr1 with
    | b :: l1, c :: r0, d :: r1, h1, h0, hr1 =>
      simp only [List.length_cons, Nat.succ.injEq] at h1 h0 hr1
      have ih2 := ih l1 r0 r1 h1 h0 hr1
      simp only [vAdd, vScale] at ih2 ⊢
      simp only [List.map_cons, List.zipWith_cons_cons]
      rw [innerProd_cons, innerProd_cons, innerProd_cons, innerProd_cons, innerProd_cons, ih2]
      ring

theorem getD_append_self (l : List G1Point) (a : G1Point) (d : G1Point) :
    (l ++ [a]).getD l.length d = a := by
  induction l with
  | nil => rfl
  | cons b l ih => simp [ih]

theorem log2F_fuel : ∀ f g n : Nat, n ≤ f → n ≤ g → log2F f n = log2F g n := by
  intro f
  induction f with
  | zero =>
    intro g n hf _
    interval_cases n
    cases g <;> simp [log2F]
  | succ f ih =>
    intro g n hf hg
    match g with
    | 0 => interval_cases n; simp [log2F]
    | g + 1 =>
      simp only [log2F]
      by_cases hn : n ≤ 1
      · simp [hn]
      · rw [if_neg hn, if_neg hn, ih g (n / 2) (by omega) (by omega)]

theorem log2N_le_one {n : Nat} (h : n ≤ 1) : log2N n = 0 := by
  interval_cases n <;> rfl

theorem log2N_halve {n : Nat} (h : 2 ≤ n) : log2N n = log2N (n / 2) + 1 := by
  match n, h with
  | m + 2, _ =>
    have h1 : log2F (m + 2) (m + 2) = log2F (m + 1) ((m + 2) / 2) + 1 := by
      simp only [log2F]
      rw [if_neg (by omega)]
    have h2 : log2F (m + 1) ((m + 2) / 2) = log2F ((m + 2) / 2) ((m + 2) / 2) :=
      log2F_fuel (m + 1) ((m + 2) / 2) ((m + 2) / 2) (by omega) (le_refl _)
    show log2F (m + 2) (m + 2) = log2F ((m + 2) / 2) ((m + 2) / 2) + 1
    rw [h1, h2]

theorem log2N_pos {n : Nat} (h : 2 ≤ n) : 1 ≤ log2N n := by
  rw [log2N_halve h]; omega

theorem log2F_le_fuel : ∀ f n : Nat, log2F f n ≤ f := by
  intro f
  induction f with
  | zero => intro n; simp [log2F]
  | succ f ih =>
    intro n
    simp only [log2F]
    by_cases hn : n ≤ 1
    · simp [hn]
    · rw [if_neg hn]
      have := ih (n / 2)
      omega

theorem log2N_le_self (n : Nat) : log2N n ≤ n := log2F_le_fuel n n

theorem foldr_blocks_length (k : Nat) (g : Nat → Nat → Scalar) :
    ∀ l : List Nat,
      ((l.foldr (fun i acc => (List.range k).map (g i) ++ acc) []) : List Scalar).length
        = l.length * k := by
  intro l
  induction l with
  | nil => simp
  | cons a l ih => simp [ih, Nat.succ_mul, Nat.add_comm]

theorem ipaLoop_run (o : HashOracle) (Hp : G1Point) (xip : Scalar) (sf : List Scalar) :
    ∀ (fuel n round : Nat) (gp hp : List G1Point) (ap bp : List Scalar)
      (Ls Rs : List G1Point) (tr : Transcript),
      log2N n ≤ fuel →
      (∀ t : Transcript, tr.length < t.length → t.length ≤ tr.length + 2 * log2N n → o t ≠ 0) →
      ∃ Lsn Rsn a b trApp,
        ipaLoop o Hp xip sf fuel n round gp hp ap bp Ls Rs tr =
          .inr (Ls ++ Lsn, Rs ++ Rsn, a, b, tr ++ trApp) ∧
        Lsn.length = log2N n ∧ Rsn.length = log2N n ∧ trApp.length = 2 * log2N n ∧
        (Ls.length = round → Rs.length = round → trApp = interleavePts Lsn Rsn) := by
  intro fuel
  induction fuel with
  | zero =>
    intro n round gp hp ap bp Ls Rs tr hfuel ho
    have hn : n ≤ 1 := by
      by_contra hc
      have := log2N_pos (n := n) (by omega)
      omega
    refine ⟨[], [], coGetD ap 0, coGetD bp 0, [], ?_, ?_, ?_, ?_, fun _ _ => rfl⟩
    · simp [ipaLoop, hn]
    · simp [log2N_le_one hn]
    · simp [log2N_le_one hn]
    · simp [log2N_le_one hn]
  | succ f ih =>
    intro n round gp hp ap bp Ls Rs tr hfuel ho
    by_cases hn : n ≤ 1
    · refine ⟨[], [], coGetD ap 0, coGetD bp 0, [], ?_, ?_, ?_, ?_, fun _ _ => rfl⟩
      · simp [ipaLoop, hn]
      · simp [log2N_le_one hn]
      · simp [log2N_le_one hn]
      · simp [log2N_le_one hn]
    · have hn2 : 2 ≤ n := by omega
      have hlog : log2N n = log2N (n / 2) + 1 := log2N_halve hn2
      rw [ipaLoop, if_neg hn]
      simp only []
      set n2 := n / 2 with hn2d
      set Lv := pAdd (pAdd (pvSum (pvSmulVec (gp.drop n2) (ap.take n2)))
                  (pvSum (pvSmulVec (hp.take n2)
                    (if round = 0 then vMul bp (sf.take n2) else bp.drop n2))))
                (pSmul (innerProd (ap.take n2) (bp.drop n2) * xip) Hp) with hLv
      set Rv := pAdd (pAdd (pvSum (pvSmulVec (gp.take n2) (ap.drop n2)))
                  (pvSum (pvSmulVec (hp.drop n2)
                    (if round = 0 then vMul bp (sf.drop n2) else bp.take n2))))
                (pSmul (innerProd (ap.drop n2) (bp.take n2) * xip) Hp) with hRv
      set tr1 := tr ++ [TItem.pt ((Ls ++ [Lv]).getD round pZero),
        TItem.pt ((Rs ++ [Rv]).getD round pZero)] with htr1
      have htr1len : tr1.length = tr.length + 2 := by simp [htr1]
      have hx : o tr1 ≠ 0 := by
        refine ho tr1 (by omega) ?_
        omega
      rw [if_neg hx]
      have ho2 : ∀ t : Transcript, tr1.length < t.length →
          t.length ≤ tr1.length + 2 * log2N n2 → o t ≠ 0 := by
        intro t h1 h2
        refine ho t (by omega) ?_
        omega
      obtain ⟨Lsn, Rsn, a, b, trApp, heq, hl1, hl2, hl3, hil⟩ :=
        ih n2 (round + 1) _ _ _ _ (Ls ++ [Lv]) (Rs ++ [Rv]) tr1 (by omega) ho2
      refine ⟨Lv :: Lsn, Rv :: Rsn, a, b,
        TItem.pt ((Ls ++ [Lv]).getD round pZero) ::
        TItem.pt ((Rs ++ [Rv]).getD round pZero) :: trApp, ?_, ?_, ?_, ?_, ?_⟩
      · rw [heq]
        simp [htr1]
      · simp [hl1, hlog]
      · simp [hl2, hlog]
      · simp only [List.length_cons, hl3, hlog]
        omega
      · intro hLs hRs
        have h1 : (Ls ++ [Lv]).getD round pZero = Lv := by
          rw [← hLs]; exact getD_append_self Ls Lv pZero
        have h2 : (Rs ++ [Rv]).getD round pZero = Rv := by
          rw [← hRs]; exact getD_append_self Rs Rv pZero
        have h3 : trApp = interleavePts Lsn Rsn := by
          apply hil <;> simp [hLs, hRs]
        rw [h1, h2, h3]
        rfl

theorem pbTrY_length (c : PBArgs) : (pbTrY c).length = c.tr.length + 2 := by
  simp [pbTrY]

theorem pbTrZ_length (c : PBArgs) : (pbTrZ c).length = c.tr.length + 3 := by
  simp [pbTrZ, pbTrY_length]

theorem pbTrX_length (c : PBArgs) : (pbTrX c).length = c.tr.length + 6 := by
  simp [pbTrX, pbTrZ_length]

theorem pbTrXip_length (c : PBArgs) : (pbTrXip c).length = c.tr.length + 10 := by
  simp [pbTrXip, pbTrX_length]

theorem pbSL_length (c : PBArgs) : (pbSL c).length = m_input_value_bits := by
  simp [pbSL]

theorem pbSR_length (c : PBArgs) : (pbSR c).length = m_input_value_bits := by
  simp [pbSR]

theorem firstNPow_length (b : Scalar) (n : Nat) : (firstNPow b n).length = n + 1 := by
  simp [firstNPow, firstNPowFrom]

theorem pbL0_length (c : PBArgs) (haL : c.aL.length = c.MN) : (pbL0 c).length = c.MN := by
  simp only [pbL0, vSub, List.length_zipWith, pbZTotal, firstNPow_length, haL]
  omega

theorem pbZnTwoN_length (c : PBArgs) :
    (pbZnTwoN c).length = c.MN * m_input_value_bits := by
  simp only [pbZnTwoN]
  rw [foldr_blocks_length m_input_value_bits
    (fun i b => coGetD (pbZPows c) i * coGetD m_two_pows b) (List.range c.MN)]
  simp

theorem pbR0_length (c : PBArgs) (haR : c.aR.length = c.MN) : (pbR0 c).length = c.MN := by
  simp only [pbR0, vAdd, vMul, List.length_zipWith, pbYTotal, pbZTotal, firstNPow_length,
    haR, pbZnTwoN_length]
  have : 1 ≤ m_input_value_bits := by decide
  have h2 : c.MN ≤ c.MN * m_input_value_bits := Nat.le_mul_of_pos_right _ (by decide)
  omega

theorem pbR1_length (c : PBArgs) (hMN : c.MN = m_input_value_bits) :
    (pbR1 c).length = c.MN := by
  simp only [pbR1, vMul, List.length_zipWith, pbYTotal, firstNPow_length, pbSR_length, hMN]
  omega

theorem pbThat_eq_pbTofX (c : PBArgs) (haL : c.aL.length = c.MN)
    (haR : c.aR.length = c.MN) (hMN : c.MN = m_input_value_bits) :
    pbThat c = pbTofX c := by
  have hl1 : (pbSL c).length = (pbL0 c).length := by
    rw [pbSL_length, pbL0_length c haL, hMN]
  have hr0 : (pbR0 c).length = (pbL0 c).length := by
    rw [pbR0_length c haR, pbL0_length c haL]
  have hr1 : (pbR1 c).length = (pbL0 c).length := by
    rw [pbR1_length c hMN, pbL0_length c haL]
  have := t_identity (pbX c) (pbL0 c) (pbSL c) (pbR0 c) (pbR1 c) hl1 hr0 hr1
  simpa [pbThat, pbL, pbR, pbTofX, pbT0, pbT1s, pbT2s] using this

theorem proveBody_done (c : PBArgs)
    (haL : c.aL.length = c.MN) (haR : c.aR.length = c.MN)
    (hMN : c.MN = m_input_value_bits)
    (ho : ∀ t : Transcript, c.tr.length < t.length →
        t.length ≤ c.tr.length + 10 + 2 * log2N c.MN → c.o t ≠ 0) :
    ∃ Lsn Rsn a b trApp,
      proveBody c = .done ⟨c.Vs, c.Ls ++ Lsn, c.Rs ++ Rsn, pbA c, pbS c, pbT1 c, pbT2 c,
          pbTaux c, pbMu c, pbThat c, a, b⟩ (pbTrXip c ++ trApp) ∧
      Lsn.length = log2N c.MN ∧ Rsn.length = log2N c.MN ∧
      trApp.length = 2 * log2N c.MN ∧
      (c.Ls = [] → c.Rs = [] → trApp = interleavePts Lsn Rsn) := by
  have hy : ¬ pbY c = 0 := by
    rw [pbY]
    exact ho (pbTrY c) (by rw [pbTrY_length]; omega) (by rw [pbTrY_length]; omega)
  have hz : ¬ pbZ c = 0 := by
    rw [pbZ]
    exact ho (pbTrZ c) (by rw [pbTrZ_length]; omega) (by rw [pbTrZ_length]; omega)
  have hx : ¬ pbX c = 0 := by
    rw [pbX]
    exact ho (pbTrX c) (by rw [pbTrX_length]; omega) (by rw [pbTrX_length]; omega)
  have hxip : ¬ pbXip c = 0 := by
    rw [pbXip]
    exact ho (pbTrXip c) (by rw [pbTrXip_length]; omega) (by rw [pbTrXip_length]; omega)
  have hident := pbThat_eq_pbTofX c haL haR hMN
  have ho2 : ∀ t : Transcript, (pbTrXip c).length < t.length →
      t.length ≤ (pbTrXip c).length + 2 * log2N c.MN → c.o t ≠ 0 := by
    intro t h1 h2
    rw [pbTrXip_length] at h1 h2
    exact ho t (by omega) (by omega)
  obtain ⟨Lsn, Rsn, a, b, trApp, heq, hl1, hl2, hl3, hil⟩ :=
    ipaLoop_run c.o c.gens.H (pbXip c) (firstNPow (sInvert (pbY c)) c.MN)
      c.MN c.MN 0 (gensVec c.gens.Gi c.MN) (gensVec c.gens.Hi c.MN)
      (pbL c) (pbR c) c.Ls c.Rs (pbTrXip c) (log2N_le_self c.MN) ho2
  refine ⟨Lsn, Rsn, a, b, trApp, ?_, hl1, hl2, hl3, ?_⟩
  · rw [proveBody, if_neg hy, if_neg hz, if_neg hx,
      if_neg (not_not_intro hident), if_neg hxip, heq]
  · intro hLs hRs
    exact hil (by simp [hLs]) (by simp [hRs])

theorem proveBody_retry_y (c : PBArgs) (h : pbY c = 0) :
    proveBody c = .retry (pbTrY c) c.Ls c.Rs := by
  rw [proveBody, if_pos h]

theorem proveBody_retry_z (c : PBArgs) (hy : ¬ pbY c = 0) (hz : pbZ c = 0) :
    proveBody c = .retry (pbTrZ c) c.Ls c.Rs := by
  rw [proveBody, if_neg hy, if_pos hz]

theorem ipaLoop_retry_first (o : HashOracle) (Hp : G1Point) (xip : Scalar) (sf : List Scalar)
    (f n round : Nat) (gp hp : List G1Point) (ap bp : List Scalar)
    (Ls Rs : List G1Point) (tr : Transcript) (hn : ¬ n ≤ 1)
    (h0 : ∀ t : Transcript, t.length = tr.length + 2 → o t = 0) :
    ∃ Ls1 Rs1 tr1,
      ipaLoop o Hp xip sf (f + 1) n round gp hp ap bp Ls Rs tr = .inl (Ls1, Rs1, tr1) ∧
      Ls1.length = Ls.length + 1 ∧ Rs1.length = Rs.length + 1 ∧
      tr1.length = tr.length + 2 := by
  rw [ipaLoop, if_neg hn]
  simp only []
  rw [if_pos (h0 _ (by simp))]
  exact ⟨_, _, _, rfl, by simp, by simp, by simp⟩

theorem proveBody_retry_ipa_first (c : PBArgs)
    (haL : c.aL.length = c.MN) (haR : c.aR.length = c.MN)
    (hMN : c.MN = m_input_value_bits)
    (ho : ∀ t : Transcript, c.tr.length < t.length →
        t.length ≤ c.tr.length + 10 → c.o t ≠ 0)
    (h0 : ∀ t : Transcript, t.length = c.tr.length + 12 → c.o t = 0) :
    ∃ tr1 Ls1 Rs1,
      proveBody c = .retry tr1 Ls1 Rs1 ∧
      Ls1.length = c.Ls.length + 1 ∧ Rs1.length = c.Rs.length + 1 ∧
      tr1.length = c.tr.length + 12 := by
  have hy : ¬ pbY c = 0 := by
    rw [pbY]
    exact ho (pbTrY c) (by rw [pbTrY_length]; omega) (by rw [pbTrY_length]; omega)
  have hz : ¬ pbZ c = 0 := by
    rw [pbZ]
    exact ho (pbTrZ c) (by rw [pbTrZ_length]; omega) (by rw [pbTrZ_length]; omega)
  have hx : ¬ pbX c = 0 := by
    rw [pbX]
    exact ho (pbTrX c) (by rw [pbTrX_length]; omega) (by rw [pbTrX_length]; omega)
  have hxip : ¬ pbXip c = 0 := by
    rw [pbXip]
    exact ho (pbTrXip c) (by rw [pbTrXip_length]; omega) (by rw [pbTrXip_length])
  have hident := pbThat_eq_pbTofX c haL haR hMN
  obtain ⟨f, hf⟩ : ∃ f, c.MN = f + 1 := ⟨c.MN - 1, by rw [hMN]; rfl⟩
  have h02 : ∀ t : Transcript, t.length = (pbTrXip c).length + 2 → c.o t = 0 := by
    intro t ht
    rw [pbTrXip_length] at ht
    exact h0 t (by omega)
  obtain ⟨Ls1, Rs1, tr1, heq, hl1, hl2, hl3⟩ :=
    ipaLoop_retry_first c.o c.gens.H (pbXip c) (firstNPow (sInvert (pbY c)) c.MN)
      f c.MN 0 (gensVec c.gens.Gi c.MN) (gensVec c.gens.Hi c.MN)
      (pbL c) (pbR c) c.Ls c.Rs (pbTrXip c) (by rw [hMN]; decide) h02
  refine ⟨tr1, Ls1, Rs1, ?_, hl1, hl2, by rw [hl3, pbTrXip_length]⟩
  rw [proveBody, if_neg hy, if_neg hz, if_neg hx,
    if_neg (not_not_intro hident), if_neg hxip]
  rw [hf] at heq ⊢
  rw [heq]

theorem proveLoop_zero_oracle (c : PBArgs) (h0 : ∀ t : Transcript, c.o t = 0) :
    ∀ (gas attempt : Nat) (tr : Transcript) (Ls Rs : List G1Point),
      proveLoop c gas attempt tr Ls Rs = (.error .retryExceeded, gas) := by
  intro gas
  induction gas with
  | zero => intro attempt tr Ls Rs; rfl
  | succ g ih =>
    intro attempt tr Ls Rs
    rw [proveLoop, proveBody_retry_y (pbAt c attempt tr Ls Rs) (h0 _)]
    simp only [ih]

theorem proveLoop_count_le (c : PBArgs) :
    ∀ (gas attempt : Nat) (tr : Transcript) (Ls Rs : List G1Point),
      (proveLoop c gas attempt tr Ls Rs).2 ≤ gas := by
  intro gas
  induction gas with
  | zero => intro attempt tr Ls Rs; simp [proveLoop]
  | succ g ih =>
    intro attempt tr Ls Rs
    rw [proveLoop]
    match hb : proveBody (pbAt c attempt tr Ls Rs) with
    | .retry tr1 Ls1 Rs1 =>
      simp only []
      have := ih (attempt + 1) tr1 Ls1 Rs1
      omega
    | .fatal => simp
    | .done p tr1 => simp

theorem interleavePts_length :
    ∀ (a b : List G1Point), (interleavePts a b).length = 2 * min a.length b.length := by
  intro a
  induction a with
  | nil => intro b; cases b <;> simp [interleavePts]
  | cons x a ih =>
    intro b
    cases b with
    | nil => simp [interleavePts]
    | cons y b =>
      simp only [interleavePts, List.length_cons, ih]
      omega

theorem claimedTranscript_length (p : Proof) (y z x : Scalar) :
    (claimedTranscript p y z x).length =
      p.Vs.length + 10 + 2 * min p.Ls.length p.Rs.length := by
  simp [claimedTranscript, interleavePts_length]
  omega

/-- Like `proveBody_done` but without the aligned-length hypotheses: the
body either hits the fatal (60)-identity check or completes. -/
theorem proveBody_cases (c : PBArgs)
    (ho : ∀ t : Transcript, c.tr.length < t.length →
        t.length ≤ c.tr.length + 10 + 2 * log2N c.MN → c.o t ≠ 0) :
    proveBody c = .fatal ∨
    ∃ Lsn Rsn a b trApp,
      proveBody c = .done ⟨c.Vs, c.Ls ++ Lsn, c.Rs ++ Rsn, pbA c, pbS c, pbT1 c, pbT2 c,
          pbTaux c, pbMu c, pbThat c, a, b⟩ (pbTrXip c ++ trApp) ∧
      Lsn.length = log2N c.MN ∧ Rsn.length = log2N c.MN ∧
      trApp.length = 2 * log2N c.MN ∧
      (c.Ls = [] → c.Rs = [] → trApp = interleavePts Lsn Rsn) := by
  have hy : ¬ pbY c = 0 := by
    rw [pbY]
    exact ho (pbTrY c) (by rw [pbTrY_length]; omega) (by rw [pbTrY_length]; omega)
  have hz : ¬ pbZ c = 0 := by
    rw [pbZ]
    exact ho (pbTrZ c) (by rw [pbTrZ_length]; omega) (by rw [pbTrZ_length]; omega)
  have hx : ¬ pbX c = 0 := by
    rw [pbX]
    exact ho (pbTrX c) (by rw [pbTrX_length]; omega) (by rw [pbTrX_length]; omega)
  have hxip : ¬ pbXip c = 0 := by
    rw [pbXip]
    exact ho (pbTrXip c) (by rw [pbTrXip_length]; omega) (by rw [pbTrXip_length]; omega)
  by_cases hident : pbThat c = pbTofX c
  · right
    have ho2 : ∀ t : Transcript, (pbTrXip c).length < t.length →
        t.length ≤ (pbTrXip c).length + 2 * log2N c.MN → c.o t ≠ 0 := by
      intro t h1 h2
      rw [pbTrXip_length] at h1 h2
      exact ho t (by omega) (by omega)
    obtain ⟨Lsn, Rsn, a, b, trApp, heq, hl1, hl2, hl3, hil⟩ :=
      ipaLoop_run c.o c.gens.H (pbXip c) (firstNPow (sInvert (pbY c)) c.MN)
        c.MN c.MN 0 (gensVec c.gens.Gi c.MN) (gensVec c.gens.Hi c.MN)
        (pbL c) (pbR c) c.Ls c.Rs (pbTrXip c) (log2N_le_self c.MN) ho2
    refine ⟨Lsn, Rsn, a, b, trApp, ?_, hl1, hl2, hl3, ?_⟩
    · rw [proveBody, if_neg hy, if_neg hz, if_neg hx,
        if_neg (not_not_intro hident), if_neg hxip, heq]
    · intro hLs hRs
      exact hil (by simp [hLs]) (by simp [hRs])
  · left
    rw [proveBody, if_neg hy, if_neg hz, if_neg hx, if_pos hident]

theorem proveRun_precond_err (cfg : Config) (o : HashOracle) (rnd : Nat → Nat → Nat → Scalar)
    (nonce : Nat → Scalar) (vs : List Scalar) (message : List Nat) (tok : Nat)
    (h : message.length > cfg.m_max_message_size ∨ vs = [] ∨
      vs.length > cfg.m_max_input_values) :
    RangeProof.Prove cfg o rnd nonce vs message tok =
      .error (if message.length > cfg.m_max_message_size then CErr.msgTooLong
        else if vs = [] then CErr.emptyValues else CErr.tooManyValues) := by
  rw [RangeProof.Prove, proveRun]
  by_cases h1 : message.length > cfg.m_max_message_size
  · rw [if_pos h1, if_pos h1]
    rfl
  · rw [if_neg h1, if_neg h1]
    by_cases h2 : vs = []
    · rw [if_pos (by simp [h2]), if_pos h2]
      rfl
    · rw [if_neg (fun hh => h2 (List.length_eq_zero.mp hh)), if_neg h2]
      have h3 : vs.length > cfg.m_max_input_values := by
        rcases h with a | a | a
        · exact absurd a h1
        · exact absurd a h2
        · exact a
      rw [if_pos h3]
      rfl

theorem proveRun_zero_oracle (cfg : Config) (o : HashOracle) (rnd : Nat → Nat → Nat → Scalar)
    (nonce : Nat → Scalar) (vs : List Scalar) (message : List Nat) (tok : Nat)
    (h1 : message.length ≤ cfg.m_max_message_size) (h2 : vs ≠ [])
    (h3 : vs.length ≤ cfg.m_max_input_values)
    (h0 : ∀ t : Transcript, o t = 0) :
    proveRun cfg o rnd nonce vs message tok =
      (.error .retryExceeded, cfg.m_max_prove_tries) := by
  rw [proveRun, if_neg (by omega), if_neg (fun hh => h2 (List.length_eq_zero.mp hh)),
    if_neg (by omega)]
  exact proveLoop_zero_oracle _ h0 _ _ _ _ _

theorem proveRun_count_le (cfg : Config) (o : HashOracle) (rnd : Nat → Nat → Nat → Scalar)
    (nonce : Nat → Scalar) (vs : List Scalar) (message : List Nat) (tok : Nat) :
    (proveRun cfg o rnd nonce vs message tok).2 ≤ cfg.m_max_prove_tries := by
  rw [proveRun]
  split_ifs
  · simp
  · simp
  · simp
  · exact proveLoop_count_le _ _ _ _ _ _

theorem proveLoop_nonzero_char (c : PBArgs) (g attempt : Nat) (tr : Transcript)
    (ho : ∀ t : Transcript, c.o t ≠ 0) (p : Proof) (trOut : Transcript)
    (htr : tr = c.Vs.map TItem.pt)
    (hp : (proveLoop c (g + 1) attempt tr [] []).1 = .ok (p, trOut)) :
    ∃ Lsn Rsn a b,
      p = ⟨(pbAt c attempt tr [] []).Vs, Lsn, Rsn,
        pbA (pbAt c attempt tr [] []), pbS (pbAt c attempt tr [] []),
        pbT1 (pbAt c attempt tr [] []), pbT2 (pbAt c attempt tr [] []),
        pbTaux (pbAt c attempt tr [] []), pbMu (pbAt c attempt tr [] []),
        pbThat (pbAt c attempt tr [] []), a, b⟩ ∧
      Lsn.length = log2N c.MN ∧ Rsn.length = log2N c.MN ∧
      (∃ y z x, trOut = claimedTranscript p y z x) := by
  rw [proveLoop] at hp
  rcases proveBody_cases (pbAt c attempt tr [] []) (fun t _ _ => ho t) with hfatal | hdone
  · rw [hfatal] at hp
    simp at hp
  · obtain ⟨Lsn, Rsn, a, b, trApp, hdone, hl1, hl2, hl3, hil⟩ := hdone
    rw [hdone] at hp
    simp only [Except.ok.injEq, Prod.mk.injEq] at hp
    obtain ⟨hpp, hptr⟩ := hp
    have htra : trApp = interleavePts Lsn Rsn := hil rfl rfl
    refine ⟨Lsn, Rsn, a, b, ?_, ?_, ?_,
      ⟨pbY (pbAt c attempt tr [] []), pbZ (pbAt c attempt tr [] []),
       pbX (pbAt c attempt tr [] []), ?_⟩⟩
    · rw [← hpp]
      simp [pbAt]
    · simpa [pbAt] using hl1
    · simpa [pbAt] using hl2
    · rw [← hptr, htra, ← hpp]
      simp only [claimedTranscript, pbTrXip, pbTrX, pbTrZ, pbTrY]
      simp [pbAt, htr, List.append_assoc]

theorem proveRun_ok_char (cfg : Config) (o : HashOracle) (rnd : Nat → Nat → Nat → Scalar)
    (nonce : Nat → Scalar) (vs : List Scalar) (message : List Nat) (tok : Nat)
    (p : Proof) (tr : Transcript)
    (ho : ∀ t : Transcript, o t ≠ 0)
    (hp : (proveRun cfg o rnd nonce vs message tok).1 = .ok (p, tr)) :
    p.Ls.length = log2N (pow2Ceil vs.length * m_input_value_bits) ∧
    p.Rs.length = p.Ls.length ∧
    p.Vs.length = vs.length ∧
    1 ≤ vs.length ∧ vs.length ≤ cfg.m_max_input_values ∧
    ∃ y z x, tr = claimedTranscript p y z x := by
  rw [proveRun] at hp
  by_cases h1 : message.length > cfg.m_max_message_size
  · rw [if_pos h1] at hp
    simp at hp
  rw [if_neg h1] at hp
  by_cases h2 : vs.length = 0
  · rw [if_pos h2] at hp
    simp at hp
  rw [if_neg h2] at hp
  by_cases h3 : vs.length > cfg.m_max_input_values
  · rw [if_pos h3] at hp
    simp at hp
  rw [if_neg h3] at hp
  simp only [] at hp
  rcases hgas : cfg.m_max_prove_tries with _ | g
  · rw [hgas] at hp
    simp [proveLoop] at hp
  · rw [hgas] at hp
    obtain ⟨Lsn, Rsn, a, b, hpp, hl1, hl2, hcl⟩ :=
      proveLoop_nonzero_char _ g 1 _ (fun t => ho t) p tr rfl hp
    refine ⟨?_, ?_, ?_, by omega, by omega, hcl⟩
    · rw [hpp]
      simpa [pbAt] using hl1
    · rw [hpp]
      simp only []
      rw [hl2, hl1]
    · rw [hpp]
      simp [pbAt]

theorem singleCtx_aL_len (o : HashOracle) (rnd : Nat → Nat → Nat → Scalar)
    (nonce : Nat → Scalar) (v : Scalar) (message : List Nat) (tok : Nat)
    (hv : (buildAL [v]).length = 64) :
    (singleCtx o rnd nonce v message tok).aL.length = (singleCtx o rnd nonce v message tok).MN := by
  show (buildAL [v]).length = pow2Ceil 1 * m_input_value_bits
  rw [hv]
  decide

theorem singleCtx_aR_len (o : HashOracle) (rnd : Nat → Nat → Nat → Scalar)
    (nonce : Nat → Scalar) (v : Scalar) (message : List Nat) (tok : Nat)
    (hv : (buildAL [v]).length = 64) :
    (singleCtx o rnd nonce v message tok).aR.length = (singleCtx o rnd nonce v message tok).MN := by
  show (vSub (buildAL [v]) (firstNPow 1 (pow2Ceil 1 * m_input_value_bits))).length
    = pow2Ceil 1 * m_input_value_bits
  rw [vSub, List.length_zipWith, firstNPow_length, hv]
  decide

theorem singleCtx_MN (o : HashOracle) (rnd : Nat → Nat → Nat → Scalar)
    (nonce : Nat → Scalar) (v : Scalar) (message : List Nat) (tok : Nat) :
    (singleCtx o rnd nonce v message tok).MN = m_input_value_bits := rfl

theorem singleCtx_tr_len (o : HashOracle) (rnd : Nat → Nat → Nat → Scalar)
    (nonce : Nat → Scalar) (v : Scalar) (message : List Nat) (tok : Nat) :
    (singleCtx o rnd nonce v message tok).tr.length = 1 := by
  simp [singleCtx]

theorem singleCtx_log2MN (o : HashOracle) (rnd : Nat → Nat → Nat → Scalar)
    (nonce : Nat → Scalar) (v : Scalar) (message : List Nat) (tok : Nat) :
    log2N (singleCtx o rnd nonce v message tok).MN = 6 := by
  show log2N (pow2Ceil 1 * m_input_value_bits) = 6
  decide

theorem proveRun_single_ok (cfg : Config) (o : HashOracle) (rnd : Nat → Nat → Nat → Scalar)
    (nonce : Nat → Scalar) (v : Scalar) (message : List Nat) (tok : Nat)
    (h1 : ¬ message.length > cfg.m_max_message_size)
    (h3 : 1 ≤ cfg.m_max_input_values)
    (hgas : 1 ≤ cfg.m_max_prove_tries)
    (hv : (buildAL [v]).length = 64)
    (ho : ∀ t : Transcript, 1 < t.length → t.length ≤ 23 → o t ≠ 0) :
    ∃ Lsn Rsn a b,
      proveRun cfg o rnd nonce [v] message tok =
        (.ok (⟨(singleCtx o rnd nonce v message tok).Vs, Lsn, Rsn,
          pbA (singleCtx o rnd nonce v message tok), pbS (singleCtx o rnd nonce v message tok),
          pbT1 (singleCtx o rnd nonce v message tok), pbT2 (singleCtx o rnd nonce v message tok),
          pbTaux (singleCtx o rnd nonce v message tok), pbMu (singleCtx o rnd nonce v message tok),
          pbThat (singleCtx o rnd nonce v message tok), a, b⟩,
          pbTrXip (singleCtx o rnd nonce v message tok) ++ interleavePts Lsn Rsn), 1) ∧
      Lsn.length = 6 ∧ Rsn.length = 6 := by
  have key : proveRun cfg o rnd nonce [v] message tok =
      proveLoop (singleCtx o rnd nonce v message tok) cfg.m_max_prove_tries 1
        (singleCtx o rnd nonce v message tok).tr [] [] := by
    rw [proveRun, if_neg h1, if_neg (by simp), if_neg (by simp; omega)]
    rfl
  have howin : ∀ t : Transcript,
      (singleCtx o rnd nonce v message tok).tr.length < t.length →
      t.length ≤ (singleCtx o rnd nonce v message tok).tr.length + 10 +
        2 * log2N (singleCtx o rnd nonce v message tok).MN → o t ≠ 0 := by
    intro t ha hb
    rw [singleCtx_tr_len] at ha hb
    rw [singleCtx_log2MN o rnd nonce v message tok] at hb
    exact ho t ha (by omega)
  obtain ⟨Lsn, Rsn, a, b, trApp, hdone, hl1, hl2, hl3, hil⟩ :=
    proveBody_done (singleCtx o rnd nonce v message tok)
      (singleCtx_aL_len o rnd nonce v message tok hv)
      (singleCtx_aR_len o rnd nonce v message tok hv)
      (singleCtx_MN o rnd nonce v message tok) howin
  have htra : trApp = interleavePts Lsn Rsn := hil rfl rfl
  subst htra
  refine ⟨Lsn, Rsn, a, b, ?_,
    by rw [hl1, singleCtx_log2MN o rnd nonce v message tok],
    by rw [hl2, singleCtx_log2MN o rnd nonce v message tok]⟩
  rw [key]
  rcases hg : cfg.m_max_prove_tries with _ | g
  · omega
  · rw [proveLoop,
      show pbAt (singleCtx o rnd nonce v message tok) 1
          (singleCtx o rnd nonce v message tok).tr [] [] =
        singleCtx o rnd nonce v message tok from rfl,
      hdone]
    simp
    exact ⟨rfl, rfl⟩

theorem recoverOne_skip (gens : Generators) (tx : TxInToRecover)
    (h : tx.Vs = [] ∨ tx.Ls.length = 0 ∨ tx.Ls.length ≠ tx.Rs.length ∨
      pEqB (recoverCommit gens tx) (tx.Vs.getD 0 pZero) = false) :
    recoverOneTxIn gens tx = none := by
  rw [recoverOneTxIn]
  rcases h with h | h | h | h
  · rw [if_pos (Or.inl (by simp [h]))]
  · rw [if_pos (Or.inr (fun hc => by omega))]
  · rw [if_pos (Or.inr (fun hc => h hc.2))]
  · by_cases hshape : tx.Vs.length = 0 ∨ ¬(0 < tx.Ls.length ∧ tx.Ls.length = tx.Rs.length)
    · rw [if_pos hshape]
    · rw [if_neg hshape, if_neg (ne_true_of_eq_false h)]

theorem recoverOne_some (gens : Generators) (tx : TxInToRecover) (e : RecoveredTxInput)
    (hsome : recoverOneTxIn gens tx = some e) :
    tx.Vs ≠ [] ∧ 0 < tx.Ls.length ∧ tx.Ls.length = tx.Rs.length ∧
    pEqB (recoverCommit gens tx) (tx.Vs.getD 0 pZero) = true ∧
    e.message =
      RangeProof.GetTrimmedVch (sShr ((tx.mu - tx.nonce 2 * tx.x) - tx.nonce 1) 64) ++
      RangeProof.GetTrimmedVch
        ((tx.tau_x - tx.nonce 4 * (tx.x * tx.x) - tx.z * tx.z * tx.nonce 100) *
          sInvert tx.x - tx.nonce 3) := by
  rw [recoverOneTxIn] at hsome
  by_cases hshape : tx.Vs.length = 0 ∨ ¬(0 < tx.Ls.length ∧ tx.Ls.length = tx.Rs.length)
  · rw [if_pos hshape] at hsome
    exact absurd hsome (by simp)
  · rw [if_neg hshape] at hsome
    push_neg at hshape
    obtain ⟨hv0, hpos, hlr⟩ := hshape
    by_cases hc : pEqB (recoverCommit gens tx) (tx.Vs.getD 0 pZero) = true
    · rw [if_pos hc] at hsome
      simp only [Option.some.injEq] at hsome
      refine ⟨fun hnil => hv0 (by simp [hnil]), hpos, hlr, hc, ?_⟩
      rw [← hsome]
    · rw [if_neg hc] at hsome
      exact absurd hsome (by simp)

theorem trimStep_true (done : List Nat) (c : Nat) :
    trimStep (true, done) c = (true, done ++ [c]) := by
  simp [trimStep]

theorem trimFold_true (l : List Nat) :
    ∀ done : List Nat, (l.foldl trimStep ((true, done) : Bool × List Nat)).2 = done ++ l := by
  induction l with
  | nil => intro done; simp
  | cons c l ih =>
    intro done
    rw [List.foldl_cons, trimStep_true, ih (done ++ [c])]
    simp

theorem trimFold_false (l : List Nat) :
    (l.foldl trimStep ((false, []) : Bool × List Nat)).2
      = l.dropWhile (fun c => c == 0) := by
  induction l with
  | nil => rfl
  | cons c l ih =>
    by_cases hc : c = 0
    · subst hc
      rw [List.foldl_cons, show trimStep (false, []) 0 = (false, []) from by simp [trimStep],
        List.dropWhile_cons]
      simpa using ih
    · rw [List.foldl_cons, show trimStep (false, []) c = (true, [c]) from by simp [trimStep, hc],
        List.dropWhile_cons, if_neg (by simp [hc]), trimFold_true l [c]]
      simp

theorem trimmed_eq_dropWhile (s : Scalar) :
    RangeProof.GetTrimmedVch s = (sGetVch s).dropWhile (fun c => c == 0) := by
  rw [RangeProof.GetTrimmedVch, trimFold_false]

theorem dropWhile_zero_head (l : List Nat) :
    (l.dropWhile (fun c => c == 0)).head? ≠ some 0 := by
  induction l with
  | nil => simp
  | cons c l ih =>
    by_cases hc : c = 0
    · subst hc
      simpa using ih
    · rw [List.dropWhile_cons, if_neg (by simp [hc])]
      simp [hc]

theorem trimmed_head (s : Scalar) : (RangeProof.GetTrimmedVch s).head? ≠ some 0 := by
  rw [trimmed_eq_dropWhile]
  exact dropWhile_zero_head _

theorem verify_false_of_rounds (cfg : Config) (o : HashOracle) (wOr : Nat → Scalar × Scalar)
    (i : Nat) (p : Proof) (tok : Nat)
    (h : p.Ls.length ≠ RangeProof.GetInnerProdArgRounds m_input_value_bits) :
    RangeProof.Verify cfg o wOr [(i, p)] tok = false := by
  have hv : RangeProof.ValidateProofsBySizes cfg [(i, p)]
      (RangeProof.GetInnerProdArgRounds m_input_value_bits) = false := by
    simp [RangeProof.ValidateProofsBySizes, h]
  rw [RangeProof.Verify]
  simp only [hv]
  rw [if_pos (by simp)]

theorem recoverTxIns_single_none (tok : Nat) (tx : TxInToRecover)
    (h : recoverOneTxIn (m_gf_GetInstance tok) tx = none) :
    RangeProof.RecoverTxIns [tx] tok = [] := by
  simp [RangeProof.RecoverTxIns, h]

/-- C3: Verify's shape validation does not use the per-proof
`expected_rounds = log2(pow2ceil(value_count)) + log2(bits_per_value)` the
claim states: line 478 passes `Config::m_input_value_bits` to
`GetInnerProdArgRounds`, a constant 12, so a shape-honest single-value
proof with six rounds (the claim's expected_rounds for one value) is
rejected (`Verify` returns `false`), while a twelve-round single-value
proof passes the size validation. -/
theorem c3_shape_check_uses_constant_rounds :
    RangeProof.Verify cfg1 oracleOne wOne [(0, proofSixRounds)] 0 = false ∧
    RangeProof.ValidateProofsBySizes cfg1 [(0, proofSixRounds)]
      (RangeProof.GetInnerProdArgRounds m_input_value_bits) = false ∧
    RangeProof.ValidateProofsBySizes cfg1 [(0, proofTwelveRounds)]
      (RangeProof.GetInnerProdArgRounds m_input_value_bits) = true ∧
    RangeProof.GetInnerProdArgRounds proofSixRounds.Vs.length = 6 ∧
    RangeProof.GetInnerProdArgRounds m_input_value_bits = 12 ∧
    proofSixRounds.Ls.length = 6 ∧ proofSixRounds.Rs.length = 6 ∧
    proofSixRounds.Vs.length = 1 := by
  refine ⟨verify_false_of_rounds cfg1 oracleOne wOne 0 proofSixRounds 0 (by decide),
    ?_, ?_, ?_, ?_, ?_, ?_, ?_⟩ <;> decide

/-- C8: the bit vector `aL` is the concatenation of the supplied values'
64-bit binary decompositions only: the code never extends it across the
power-of-two-rounded value count (the TODO at `range_proof.cpp:170`), so
for three values `aL` has `3 * 64 = 192` entries where the claim requires
`pow2ceil(3) * 64 = 256`. -/
theorem c8_aL_not_padded_to_power_of_two :
    (buildAL [1, 2, 3]).length = 192 ∧
    pow2Ceil ([1, 2, 3] : List Scalar).length * m_input_value_bits = 256 ∧
    (buildAL [100]).length = 1 * m_input_value_bits := by
  refine ⟨?_, ?_, ?_⟩ <;> decide

/-- C5 counterexample: with none of the claim's three precondition
violations present (one value, empty message, bounds respected), `Prove`
still fails with a ConstructionError once the retry budget is exhausted by
zero challenges, refuting the claim's "exactly when". -/
theorem c5_counterexample_retry_exhaustion :
    ([100] : List Scalar).length = 1 ∧ ([] : List Nat).length = 0 ∧
    0 ≤ cfgT1.m_max_message_size ∧ 1 ≤ cfgT1.m_max_input_values ∧
    RangeProof.Prove cfgT1 oracleZero rnd0 nonce1 [100] [] 0 =
      .error .retryExceeded := by
  refine ⟨rfl, rfl, by decide, by decide, ?_⟩
  rw [RangeProof.Prove, proveRun_zero_oracle cfgT1 oracleZero rnd0 nonce1 [100] [] 0
    (by decide) (by decide) (by decide) (fun t => rfl)]
  rfl

/-- C5 amended: violating any of the three preconditions (message too
long, empty value vector, too many values) makes `Prove` fail with the
corresponding ConstructionError, checked in that order before any proof
construction (the result is the same for every transcript and randomness
oracle, so no partial proof is produced).  `Prove` may additionally fail
on retry exhaustion or the internal (60) identity check. -/
theorem c5_amended_preconditions (cfg : Config) (o : HashOracle)
    (rnd : Nat → Nat → Nat → Scalar) (nonce : Nat → Scalar)
    (vs : List Scalar) (message : List Nat) (tok : Nat)
    (h : message.length > cfg.m_max_message_size ∨ vs = [] ∨
      vs.length > cfg.m_max_input_values) :
    RangeProof.Prove cfg o rnd nonce vs message tok =
      .error (if message.length > cfg.m_max_message_size then CErr.msgTooLong
        else if vs = [] then CErr.emptyValues else CErr.tooManyValues) :=
  proveRun_precond_err cfg o rnd nonce vs message tok h

theorem c5_amended_preconditions_witness :
    RangeProof.Prove cfg1 oracleOne rnd0 nonce1 [] [] 0 = .error .emptyValues := by
  have h := c5_amended_preconditions cfg1 oracleOne rnd0 nonce1 [] [] 0 (Or.inr (Or.inl rfl))
  simpa using h

/-- C6: with the synthetic always-zero transcript oracle, `Prove`
terminates with a ConstructionError after running exactly
`Config::m_max_prove_tries` attempts (whenever its preconditions pass),
and on every input the retry loop runs at most that many attempts. -/
theorem c6_retry_bound_termination :
    (∀ (cfg : Config) (o : HashOracle) (rnd : Nat → Nat → Nat → Scalar)
        (nonce : Nat → Scalar) (vs : List Scalar) (message : List Nat) (tok : Nat),
        message.length ≤ cfg.m_max_message_size → vs ≠ [] →
        vs.length ≤ cfg.m_max_input_values →
        (∀ t : Transcript, o t = 0) →
        proveRun cfg o rnd nonce vs message tok =
          (.error .retryExceeded, cfg.m_max_prove_tries)) ∧
    (∀ (cfg : Config) (o : HashOracle) (rnd : Nat → Nat → Nat → Scalar)
        (nonce : Nat → Scalar) (vs : List Scalar) (message : List Nat) (tok : Nat),
        (proveRun cfg o rnd nonce vs message tok).2 ≤ cfg.m_max_prove_tries) :=
  ⟨fun cfg o rnd nonce vs message tok h1 h2 h3 h0 =>
    proveRun_zero_oracle cfg o rnd nonce vs message tok h1 h2 h3 h0,
   fun cfg o rnd nonce vs message tok =>
    proveRun_count_le cfg o rnd nonce vs message tok⟩

theorem c6_retry_bound_termination_witness :
    proveRun cfgT1 oracleZero rnd0 nonce1 [100] [] 0 =
      (.error .retryExceeded, cfgT1.m_max_prove_tries) ∧
    (proveRun cfg1 oracleOne rnd0 nonce1 [100] [] 0).2 ≤ cfg1.m_max_prove_tries :=
  ⟨c6_retry_bound_termination.1 cfgT1 oracleZero rnd0 nonce1 [100] [] 0
      (by decide) (by decide) (by decide) (fun t => rfl),
   c6_retry_bound_termination.2 cfg1 oracleOne rnd0 nonce1 [100] [] 0⟩

/-- C7: `RecoverTxIns` is a total per-input filter: it returns at most one
entry per input, an input whose `Vs` is empty, whose `Ls` is empty, whose
`Ls`/`Rs` lengths differ, or whose recomputed first-value commitment does
not match `Vs[0]` is silently dropped, and every returned entry comes from
an input that passed the commitment check. -/
theorem c7_recovery_skips_bad_items :
    (∀ (txs : List TxInToRecover) (tok : Nat),
        (RangeProof.RecoverTxIns txs tok).length ≤ txs.length) ∧
    (∀ (tok : Nat) (tx : TxInToRecover),
        (tx.Vs = [] ∨ tx.Ls.length = 0 ∨ tx.Ls.length ≠ tx.Rs.length ∨
          pEqB (recoverCommit (m_gf_GetInstance tok) tx) (tx.Vs.getD 0 pZero) = false) →
        recoverOneTxIn (m_gf_GetInstance tok) tx = none) ∧
    (∀ (txs : List TxInToRecover) (tok : Nat) (e : RecoveredTxInput),
        e ∈ RangeProof.RecoverTxIns txs tok →
        ∃ tx, tx ∈ txs ∧ recoverOneTxIn (m_gf_GetInstance tok) tx = some e ∧
          pEqB (recoverCommit (m_gf_GetInstance tok) tx) (tx.Vs.getD 0 pZero) = true) := by
  refine ⟨?_, ?_, ?_⟩
  · intro txs tok
    exact List.length_filterMap_le _ _
  · intro tok tx h
    exact recoverOne_skip _ _ h
  · intro txs tok e he
    rw [RangeProof.RecoverTxIns, List.mem_filterMap] at he
    obtain ⟨tx, htx, hsome⟩ := he
    exact ⟨tx, htx, hsome, (recoverOne_some _ _ _ hsome).2.2.2.1⟩

theorem c7_recovery_skips_bad_items_witness :
    recoverOneTxIn (m_gf_GetInstance 0) emptyTxIn = none ∧
    (RangeProof.RecoverTxIns [emptyTxIn] 0).length ≤ 1 :=
  ⟨c7_recovery_skips_bad_items.2.1 0 emptyTxIn (Or.inl rfl),
   c7_recovery_skips_bad_items.1 [emptyTxIn] 0⟩

/-- C10: `GetTrimmedVch` is serialization with every leading zero byte
removed, both recovered message chunks are built through it (so neither
chunk ever begins with `0x00`), and consequently a message whose leading
byte is `0x00` is not reproduced: a recoverable input packed from the
2-byte message `0x00 0x41` recovers as the 1-byte message `0x41`. -/
theorem c10_trimmed_message_chunks :
    (∀ s : Scalar, RangeProof.GetTrimmedVch s = (sGetVch s).dropWhile (fun c => c == 0)) ∧
    (∀ s : Scalar, (RangeProof.GetTrimmedVch s).head? ≠ some 0) ∧
    (∀ (gens : Generators) (tx : TxInToRecover) (e : RecoveredTxInput),
        recoverOneTxIn gens tx = some e →
        e.message =
          RangeProof.GetTrimmedVch (sShr ((tx.mu - tx.nonce 2 * tx.x) - tx.nonce 1) 64) ++
          RangeProof.GetTrimmedVch
            ((tx.tau_x - tx.nonce 4 * (tx.x * tx.x) - tx.z * tx.z * tx.nonce 100) *
              sInvert tx.x - tx.nonce 3) ∧
        ∃ c1 c2 : List Nat, e.message = c1 ++ c2 ∧
          c1.head? ≠ some 0 ∧ c2.head? ≠ some 0) ∧
    (recoverOneTxIn (m_gf_GetInstance 0) craftedTxIn = some craftedOut ∧
      craftedOut.message = [65] ∧ leadingZeroMsg = [0, 65] ∧
      craftedTxIn.mu = nonce0 1 + nonce0 2 * craftedTxIn.x + craftedMsgV0) := by
  refine ⟨trimmed_eq_dropWhile, trimmed_head, ?_, ?_, rfl, rfl, rfl⟩
  · intro gens tx e hsome
    have hmsg := (recoverOne_some gens tx e hsome).2.2.2.2
    exact ⟨hmsg, _, _, hmsg, trimmed_head _, trimmed_head _⟩
  · decide

theorem c10_trimmed_message_chunks_witness :
    craftedOut.message =
      RangeProof.GetTrimmedVch
        (sShr ((craftedTxIn.mu - craftedTxIn.nonce 2 * craftedTxIn.x) -
          craftedTxIn.nonce 1) 64) ++
      RangeProof.GetTrimmedVch
        ((craftedTxIn.tau_x - craftedTxIn.nonce 4 * (craftedTxIn.x * craftedTxIn.x) -
          craftedTxIn.z * craftedTxIn.z * craftedTxIn.nonce 100) *
          sInvert craftedTxIn.x - craftedTxIn.nonce 3) ∧
    ∃ c1 c2 : List Nat, craftedOut.message = c1 ++ c2 ∧
      c1.head? ≠ some 0 ∧ c2.head? ≠ some 0 :=
  c10_trimmed_message_chunks.2.2.1 (m_gf_GetInstance 0) craftedTxIn craftedOut (by decide)

/-- C1: the round trip fails on the code: an honest single-value proof
(value 100, empty message, no zero challenges, so no retries) carries
`log2(pow2ceil(1)*64) = 6` inner-product rounds, but `Verify` demands
`GetInnerProdArgRounds(m_input_value_bits) = 12` rounds
(`range_proof.cpp:478`) and rejects it in the size validation, returning
`false` where the claim requires `true`. -/
theorem c1_round_trip_rejected :
    ∃ p, RangeProof.Prove cfg1 oracleOne rnd0 nonce1 [100] [] 0 = .ok p ∧
      RangeProof.Verify cfg1 oracleOne wOne [(0, p)] 0 = false := by
  obtain ⟨Lsn, Rsn, a, b, hrun, hl1, hl2⟩ :=
    proveRun_single_ok cfg1 oracleOne rnd0 nonce1 100 [] 0 (by decide) (by decide) (by decide)
      (by decide) (fun t _ _ => by show (1 : Scalar) ≠ 0; decide)
  set s1 := singleCtx oracleOne rnd0 nonce1 100 [] 0 with hs1
  refine ⟨⟨s1.Vs, Lsn, Rsn, pbA s1, pbS s1, pbT1 s1, pbT2 s1, pbTaux s1, pbMu s1,
    pbThat s1, a, b⟩, ?_, ?_⟩
  · rw [RangeProof.Prove, hrun]
    rfl
  · apply verify_false_of_rounds
    show Lsn.length ≠ _
    rw [hl1]
    decide

/-- C2: recovery of an honest single-value proof (value 100, the 11-byte
message "Hello world", correct shared secret, exported challenges
`x = z = 1`) returns no entries: `Prove` commits `Vs[0] = H*gamma + G*v`
(`range_proof.cpp:152`) but `RecoverTxIns` recomputes `G*gamma + H*v`
(`range_proof.cpp:547`), so the commitment comparison fails and the input
is skipped, where the claim requires one entry with amount 100. -/
theorem c2_recovery_returns_nothing :
    ∃ p, RangeProof.Prove cfg1 oracleOne rnd0 nonce1 [100] msg11 0 = .ok p ∧
      RangeProof.RecoverTxIns [⟨0, p.Vs, p.Ls, p.Rs, p.mu, p.tau_x, 1, 1, nonce1⟩] 0 = [] := by
  obtain ⟨Lsn, Rsn, a, b, hrun, hl1, hl2⟩ :=
    proveRun_single_ok cfg1 oracleOne rnd0 nonce1 100 msg11 0 (by decide) (by decide) (by decide)
      (by decide) (fun t _ _ => by show (1 : Scalar) ≠ 0; decide)
  set s1 := singleCtx oracleOne rnd0 nonce1 100 msg11 0 with hs1
  refine ⟨⟨s1.Vs, Lsn, Rsn, pbA s1, pbS s1, pbT1 s1, pbT2 s1, pbTaux s1, pbMu s1,
    pbThat s1, a, b⟩, ?_, ?_⟩
  · rw [RangeProof.Prove, hrun]
    rfl
  · apply recoverTxIns_single_none
    apply recoverOne_skip
    refine Or.inr (Or.inr (Or.inr ?_))
    show pEqB
      (pAdd (pSmul (nonce1 100) (m_gf_GetInstance 0).G)
        (pSmul (sAnd ((pbMu (singleCtx oracleOne rnd0 nonce1 100 msg11 0) - nonce1 2 * 1) -
          nonce1 1) sOf64Mask) (m_gf_GetInstance 0).H))
      ((singleCtx oracleOne rnd0 nonce1 100 msg11 0).Vs.getD 0 pZero) = false
    decide

/-- C4 counterexample: with an oracle that yields the zero challenge
exactly at the first inner-product round of the first attempt, `Prove`
succeeds on the retry but returns `Ls`/`Rs` of length 7, not the claimed
`log2(pow2ceil(1)*64) = 6`: the retry re-runs the IPA without clearing the
entries the failed attempt already pushed (`range_proof.cpp:64,136,179`). -/
theorem c4_counterexample_ipa_retry :
    ∃ p, RangeProof.Prove cfg1 oracle13 rnd0 nonce1 [100] [] 0 = .ok p ∧
      p.Ls.length = 7 ∧ p.Rs.length = 7 ∧
      log2N (pow2Ceil ([100] : List Scalar).length * m_input_value_bits) = 6 := by
  set c := singleCtx oracle13 rnd0 nonce1 100 [] 0 with hc
  have htl : c.tr.length = 1 := singleCtx_tr_len _ _ _ _ _ _
  have key : proveRun cfg1 oracle13 rnd0 nonce1 [100] [] 0 =
      proveLoop c cfg1.m_max_prove_tries 1 c.tr [] [] := by
    rw [proveRun, if_neg (by decide), if_neg (by simp), if_neg (by decide)]
    rfl
  obtain ⟨tr1, Ls1, Rs1, hretry, hLs1, hRs1, htr1len⟩ :=
    proveBody_retry_ipa_first c
      (singleCtx_aL_len oracle13 rnd0 nonce1 100 [] 0 (by decide))
      (singleCtx_aR_len oracle13 rnd0 nonce1 100 [] 0 (by decide))
      (singleCtx_MN oracle13 rnd0 nonce1 100 [] 0)
      (by
        intro t h1 h2
        rw [htl] at h1 h2
        show oracle13 t ≠ 0
        simp only [oracle13]
        rw [if_neg (by omega)]
        decide)
      (by
        intro t ht
        rw [htl] at ht
        show oracle13 t = 0
        simp only [oracle13]
        rw [if_pos (by omega)])
  have htr1 : tr1.length = 13 := by omega
  set c2 := pbAt c 2 tr1 Ls1 Rs1 with hc2
  have hc2tr : c2.tr.length = 13 := htr1
  have hlog2 : log2N c2.MN = 6 := singleCtx_log2MN oracle13 rnd0 nonce1 100 [] 0
  obtain ⟨Lsn, Rsn, a, b, trApp, hdone, hl1, hl2, hl3, hil⟩ :=
    proveBody_done c2
      (singleCtx_aL_len oracle13 rnd0 nonce1 100 [] 0 (by decide))
      (singleCtx_aR_len oracle13 rnd0 nonce1 100 [] 0 (by decide))
      (singleCtx_MN oracle13 rnd0 nonce1 100 [] 0)
      (by
        intro t h1 h2
        rw [hc2tr] at h1
        rw [hc2tr, hlog2] at h2
        show oracle13 t ≠ 0
        simp only [oracle13]
        rw [if_neg (by omega)]
        decide)
  have hstep2 : proveLoop c 99 2 tr1 Ls1 Rs1 =
      (.ok (⟨c2.Vs, c2.Ls ++ Lsn, c2.Rs ++ Rsn, pbA c2, pbS c2, pbT1 c2, pbT2 c2,
        pbTaux c2, pbMu c2, pbThat c2, a, b⟩, pbTrXip c2 ++ trApp), 1) := by
    rw [show (99 : Nat) = 98 + 1 from rfl, proveLoop, ← hc2, hdone]
  have hloop : proveLoop c cfg1.m_max_prove_tries 1 c.tr [] [] =
      (.ok (⟨c2.Vs, c2.Ls ++ Lsn, c2.Rs ++ Rsn, pbA c2, pbS c2, pbT1 c2, pbT2 c2,
        pbTaux c2, pbMu c2, pbThat c2, a, b⟩, pbTrXip c2 ++ trApp), 2) := by
    rw [show cfg1.m_max_prove_tries = 99 + 1 from rfl, proveLoop,
      show pbAt c 1 c.tr [] [] = c from rfl, hretry]
    simp only [hstep2]
  refine ⟨⟨c2.Vs, c2.Ls ++ Lsn, c2.Rs ++ Rsn, pbA c2, pbS c2, pbT1 c2, pbT2 c2,
    pbTaux c2, pbMu c2, pbThat c2, a, b⟩, ?_, ?_, ?_, by decide⟩
  · rw [RangeProof.Prove, key, hloop]
    rfl
  · show (c2.Ls ++ Lsn).length = 7
    rw [List.length_append]
    have : c2.Ls.length = 1 := by
      show Ls1.length = 1
      rw [hLs1]
      rfl
    rw [this, hl1, hlog2]
  · show (c2.Rs ++ Rsn).length = 7
    rw [List.length_append]
    have : c2.Rs.length = 1 := by
      show Rs1.length = 1
      rw [hRs1]
      rfl
    rw [this, hl2, hlog2]

/-- C4 amended: on executions where the transcript oracle never yields the
zero challenge (so no retries occur, in particular none inside the
inner-product argument), every proof a successful `Prove` returns has
`len(Ls) = len(Rs) = log2(pow2ceil(value_count) * bits_per_value)` and
`1 ≤ len(Vs) ≤ max_input_values`. -/
theorem c4_amended_shape_invariant (cfg : Config) (o : HashOracle)
    (rnd : Nat → Nat → Nat → Scalar) (nonce : Nat → Scalar)
    (vs : List Scalar) (message : List Nat) (tok : Nat) (p : Proof)
    (ho : ∀ t : Transcript, o t ≠ 0)
    (hp : RangeProof.Prove cfg o rnd nonce vs message tok = .ok p) :
    p.Ls.length = log2N (pow2Ceil vs.length * m_input_value_bits) ∧
    p.Rs.length = p.Ls.length ∧
    1 ≤ p.Vs.length ∧ p.Vs.length ≤ cfg.m_max_input_values := by
  rw [RangeProof.Prove] at hp
  rcases hq : (proveRun cfg o rnd nonce vs message tok).1 with e | pr
  · rw [hq] at hp
    simp [Except.map] at hp
  · rw [hq] at hp
    simp only [Except.map, Except.ok.injEq] at hp
    obtain ⟨hLs, hRs, hVs, hlo, hhi, _⟩ :=
      proveRun_ok_char cfg o rnd nonce vs message tok pr.1 pr.2 ho (by rw [hq])
    rw [← hp]
    exact ⟨hLs, hRs, by omega, by omega⟩

theorem c4_amended_shape_invariant_witness :
    ∃ p, RangeProof.Prove cfg1 oracleOne rnd0 nonce1 [100] [] 0 = .ok p ∧
      p.Ls.length = log2N (pow2Ceil ([100] : List Scalar).length * m_input_value_bits) ∧
      p.Rs.length = p.Ls.length ∧
      1 ≤ p.Vs.length ∧ p.Vs.length ≤ cfg1.m_max_input_values := by
  obtain ⟨Lsn, Rsn, a, b, hrun, hl1, hl2⟩ :=
    proveRun_single_ok cfg1 oracleOne rnd0 nonce1 100 [] 0 (by decide) (by decide) (by decide)
      (by decide) (fun t _ _ => by show (1 : Scalar) ≠ 0; decide)
  set s1 := singleCtx oracleOne rnd0 nonce1 100 [] 0 with hs1
  have hp : RangeProof.Prove cfg1 oracleOne rnd0 nonce1 [100] [] 0 =
      .ok ⟨s1.Vs, Lsn, Rsn, pbA s1, pbS s1, pbT1 s1, pbT2 s1, pbTaux s1, pbMu s1,
        pbThat s1, a, b⟩ := by
    rw [RangeProof.Prove, hrun]
    rfl
  exact ⟨_, hp, c4_amended_shape_invariant cfg1 oracleOne rnd0 nonce1 [100] [] 0 _
    (fun t => by show (1 : Scalar) ≠ 0; decide) hp⟩

/-- C9 counterexample: with an oracle that yields the zero challenge
exactly at the first `z` derivation, `Prove` succeeds after one retry, but
its final transcript holds 26 entries (the first attempt's `A`, `S` and
`y` were appended again, uncleared), while the claimed order
`Vs -> A -> S -> y -> z -> T1 -> T2 -> x -> tau_x -> mu -> t_hat ->
Ls/Rs interleaved` always has `len(Vs) + 10 + 2*min(len(Ls), len(Rs))`
entries, here 23, so no challenge values can make the transcript match the
claimed sequence. -/
theorem c9_counterexample_retry_order :
    (∀ (q : Proof) (y z x : Scalar),
      (claimedTranscript q y z x).length = q.Vs.length + 10 + 2 * min q.Ls.length q.Rs.length) ∧
    ∃ p tr, (proveRun cfg1 oracleZ4 rnd0 nonce1 [100] [] 0).1 = .ok (p, tr) ∧
      tr.length = 26 ∧
      p.Vs.length + 10 + 2 * min p.Ls.length p.Rs.length = 23 := by
  refine ⟨claimedTranscript_length, ?_⟩
  set c := singleCtx oracleZ4 rnd0 nonce1 100 [] 0 with hc
  have htl : c.tr.length = 1 := singleCtx_tr_len _ _ _ _ _ _
  have key : proveRun cfg1 oracleZ4 rnd0 nonce1 [100] [] 0 =
      proveLoop c cfg1.m_max_prove_tries 1 c.tr [] [] := by
    rw [proveRun, if_neg (by decide), if_neg (by simp), if_neg (by decide)]
    rfl
  have hy : ¬ pbY c = 0 := by
    rw [pbY]
    show ¬ oracleZ4 (pbTrY c) = 0
    simp only [oracleZ4]
    rw [if_neg (by rw [pbTrY_length, htl]; omega)]
    decide
  have hz : pbZ c = 0 := by
    rw [pbZ]
    show oracleZ4 (pbTrZ c) = 0
    simp only [oracleZ4]
    rw [if_pos (by rw [pbTrZ_length, htl])]
  have hretry := proveBody_retry_z c hy hz
  set c2 := pbAt c 2 (pbTrZ c) [] [] with hc2
  have hc2tr : c2.tr.length = 4 := by
    show (pbTrZ c).length = 4
    rw [pbTrZ_length, htl]
  have hlog2 : log2N c2.MN = 6 := singleCtx_log2MN oracleZ4 rnd0 nonce1 100 [] 0
  obtain ⟨Lsn, Rsn, a, b, trApp, hdone, hl1, hl2, hl3, hil⟩ :=
    proveBody_done c2
      (singleCtx_aL_len oracleZ4 rnd0 nonce1 100 [] 0 (by decide))
      (singleCtx_aR_len oracleZ4 rnd0 nonce1 100 [] 0 (by decide))
      (singleCtx_MN oracleZ4 rnd0 nonce1 100 [] 0)
      (by
        intro t h1 h2
        rw [hc2tr] at h1
        rw [hc2tr, hlog2] at h2
        show oracleZ4 t ≠ 0
        simp only [oracleZ4]
        rw [if_neg (by omega)]
        decide)
  have hstep2 : proveLoop c 99 2 (pbTrZ c) [] [] =
      (.ok (⟨c2.Vs, c2.Ls ++ Lsn, c2.Rs ++ Rsn, pbA c2, pbS c2, pbT1 c2, pbT2 c2,
        pbTaux c2, pbMu c2, pbThat c2, a, b⟩, pbTrXip c2 ++ trApp), 1) := by
    rw [show (99 : Nat) = 98 + 1 from rfl, proveLoop, ← hc2, hdone]
  have hloop : proveLoop c cfg1.m_max_prove_tries 1 c.tr [] [] =
      (.ok (⟨c2.Vs, c2.Ls ++ Lsn, c2.Rs ++ Rsn, pbA c2, pbS c2, pbT1 c2, pbT2 c2,
        pbTaux c2, pbMu c2, pbThat c2, a, b⟩, pbTrXip c2 ++ trApp), 2) := by
    rw [show cfg1.m_max_prove_tries = 99 + 1 from rfl, proveLoop,
      show pbAt c 1 c.tr [] [] = c from rfl, hretry,
      show c.Ls = ([] : List G1Point) from rfl,
      show c.Rs = ([] : List G1Point) from rfl]
    show ((proveLoop c 99 2 (pbTrZ c) [] []).1,
      (proveLoop c 99 2 (pbTrZ c) [] []).2 + 1) = _
    rw [hstep2]
  refine ⟨⟨c2.Vs, c2.Ls ++ Lsn, c2.Rs ++ Rsn, pbA c2, pbS c2, pbT1 c2, pbT2 c2,
    pbTaux c2, pbMu c2, pbThat c2, a, b⟩, pbTrXip c2 ++ trApp, ?_, ?_, ?_⟩
  · rw [key, hloop]
  · rw [List.length_append, pbTrXip_length, hc2tr, hl3, hlog2]
  · show c2.Vs.length + 10 + 2 * min (c2.Ls ++ Lsn).length (c2.Rs ++ Rsn).length = 23
    have hVs : c2.Vs.length = 1 := by
      show ((singleCtx oracleZ4 rnd0 nonce1 100 [] 0).Vs).length = 1
      simp [singleCtx]
    have h1 : (c2.Ls ++ Lsn).length = 6 := by
      rw [show c2.Ls = ([] : List G1Point) from rfl, List.nil_append, hl1, hlog2]
    have h2 : (c2.Rs ++ Rsn).length = 6 := by
      rw [show c2.Rs = ([] : List G1Point) from rfl, List.nil_append, hl2, hlog2]
    simp only [hVs, h1, h2]
    decide

/-- C9 amended: on executions where the transcript oracle never yields the
zero challenge (so no retries occur), the final transcript is exactly the
claimed sequence `Vs -> A -> S -> y -> z -> T1 -> T2 -> x -> tau_x -> mu
-> t_hat -> Ls/Rs interleaved per round` for the derived challenges
`y`, `z`, `x`. -/
theorem c9_amended_transcript_order (cfg : Config) (o : HashOracle)
    (rnd : Nat → Nat → Nat → Scalar) (nonce : Nat → Scalar)
    (vs : List Scalar) (message : List Nat) (tok : Nat) (p : Proof) (tr : Transcript)
    (ho : ∀ t : Transcript, o t ≠ 0)
    (hp : (proveRun cfg o rnd nonce vs message tok).1 = .ok (p, tr)) :
    ∃ y z x, tr = claimedTranscript p y z x :=
  (proveRun_ok_char cfg o rnd nonce vs message tok p tr ho hp).2.2.2.2.2

theorem c9_amended_transcript_order_witness :
    ∃ p tr, (proveRun cfg1 oracleOne rnd0 nonce1 [100] [] 0).1 = .ok (p, tr) ∧
      ∃ y z x, tr = claimedTranscript p y z x := by
  obtain ⟨Lsn, Rsn, a, b, hrun, hl1, hl2⟩ :=
    proveRun_single_ok cfg1 oracleOne rnd0 nonce1 100 [] 0 (by decide) (by decide) (by decide)
      (by decide) (fun t _ _ => by show (1 : Scalar) ≠ 0; decide)
  set s1 := singleCtx oracleOne rnd0 nonce1 100 [] 0 with hs1
  have hp : (proveRun cfg1 oracleOne rnd0 nonce1 [100] [] 0).1 =
      .ok (⟨s1.Vs, Lsn, Rsn, pbA s1, pbS s1, pbT1 s1, pbT2 s1, pbTaux s1, pbMu s1,
        pbThat s1, a, b⟩, pbTrXip s1 ++ interleavePts Lsn Rsn) := by
    rw [hrun]
  exact ⟨_, _, hp, c9_amended_transcript_order cfg1 oracleOne rnd0 nonce1 [100] [] 0 _ _
    (fun t => by show (1 : Scalar) ≠ 0; decide) hp⟩
